import Mathlib

/-!
# Graph.h : adjacency-list graph with depth-first / breadth-first traversal

Shallow embedding of `src/Graph.h`.

* A `Node<T>*` is an address: an index into a heap of live node objects.
  Dereferencing an address outside the heap is undefined behaviour in the
  source and yields `none` here.
* `Graph<T>` stores its nodes by value; the adjacency lists of those copies
  still hold addresses of the caller's objects (the heap).
* `std::unordered_set<T>` is a duplicate-free list with `List.insert` and
  membership; `std::vector<T>` and `std::deque<Node<T>>` are lists.
* The recursion of `depthFirstImpl` and the `while` loop of
  `breadthFirstTraversal` are driven by a fuel counter; the traversals supply
  a fuel computed from the heap, and the theorems show it never runs out on
  a heap without dangling addresses.
-/

namespace GraphH

/-! ## Data model -/

/-- Node of the source: `T data` and `std::vector<Node*> adjacencyList`, the
pointers being heap addresses. -/
structure Node (T : Type) where
  data : T
  adjacencyList : List Nat
deriving DecidableEq, Repr

/-- The caller's live node objects; the address of a node is its index. -/
abbrev Heap (T : Type) := List (Node T)

/-- Graph of the source: `std::vector<Node<T>> nodes`, held by value. -/
structure Graph (T : Type) where
  nodes : List (Node T)
deriving DecidableEq, Repr

/-- Constructor `Node(const T &value)`: the adjacency list starts empty. -/
def Node.new {T : Type} (value : T) : Node T :=
  { data := value, adjacencyList := [] }

/-- Method `Node::setAdjacencyList`: `adjacencyList = adj`. -/
def Node.setAdjacencyList {T : Type} (n : Node T) (adj : List Nat) : Node T :=
  { n with adjacencyList := adj }

/-- Loop of `Node::getAdjacencyList` over the remaining pointers:
`values.push_back(node->data)`. -/
def getAdjacencyListLoop {T : Type} (h : Heap T) : List Nat → List T → Option (List T)
  | [], values => some values
  | p :: ps, values =>
    match h[p]? with
    | none => none
    | some node => getAdjacencyListLoop h ps (values ++ [node.data])

/-- Method `Node::getAdjacencyList`: the data of the adjacent nodes, read
through the pointers. -/
def Node.getAdjacencyList {T : Type} (h : Heap T) (n : Node T) : Option (List T) :=
  getAdjacencyListLoop h n.adjacencyList []

/-- Call `obj.setAdjacencyList(adj)` on the heap object at address `a`. -/
def Heap.setAdjacencyList {T : Type} (h : Heap T) (a : Nat) (adj : List Nat) :
    Option (Heap T) :=
  match h[a]? with
  | none => none
  | some n => some (h.set a (n.setAdjacencyList adj))

/-- Constructor `Graph(const std::vector<Node<T>> &nodes)`: copies the sequence. -/
def Graph.new {T : Type} (nodes : List (Node T)) : Graph T :=
  { nodes := nodes }

/-- Method `Graph::getNodes`: returns a copy of the stored sequence. -/
def Graph.getNodes {T : Type} (g : Graph T) : List (Node T) :=
  g.nodes

/-! ## Depth-first traversal -/

/-- The two out-parameters of `depthFirstImpl`. -/
structure DfsState (T : Type) where
  values : List T
  visited : List T
deriving DecidableEq, Repr

/-- The `for (const auto &child : n.adjacencyList)` loop of `depthFirstImpl`,
over the remaining pointers; `recurse` is the recursive call. -/
def dfsChildren {T : Type} [DecidableEq T] (h : Heap T)
    (recurse : Node T → DfsState T → Option (DfsState T)) :
    List Nat → DfsState T → Option (DfsState T)
  | [], s => some s
  | p :: ps, s =>
    match h[p]? with
    | none => none
    | some child =>
      if child.data ∈ s.visited then
        dfsChildren h recurse ps s
      else
        match recurse child s with
        | none => none
        | some s' => dfsChildren h recurse ps s'

/-- Method `Graph::depthFirstImpl`; the fuel bounds the recursion depth. -/
def depthFirstImpl {T : Type} [DecidableEq T] (h : Heap T) :
    Nat → Node T → DfsState T → Option (DfsState T)
  | 0, _, _ => none
  | fuel + 1, n, s =>
    dfsChildren h (depthFirstImpl h fuel) n.adjacencyList
      { values := s.values ++ [n.data], visited := s.visited.insert n.data }

/-- Method `Graph::depthFirstTraversal`. The recursion depth never exceeds the
number of distinct data values, hence the fuel `h.length + 1`. -/
def depthFirstTraversal {T : Type} [DecidableEq T] (h : Heap T) (g : Graph T) :
    Option (List T) :=
  match g.nodes with
  | [] => some []
  | n0 :: _ =>
    match depthFirstImpl h (h.length + 1) n0 { values := [], visited := [] } with
    | none => none
    | some s => some s.values

/-! ## Breadth-first traversal -/

/-- Local variables of `breadthFirstTraversal`: the deque `d`, `result` and
`visited`. -/
structure BfsState (T : Type) where
  d : List (Node T)
  result : List T
  visited : List T
deriving DecidableEq, Repr

/-- The `for (auto &node : d[0].adjacencyList)` loop: `d.push_back(*node)` for
every adjacent node whose data is not in `visited`. -/
def bfsPush {T : Type} [DecidableEq T] (h : Heap T) (visited : List T) :
    List Nat → List (Node T) → Option (List (Node T))
  | [], d => some d
  | p :: ps, d =>
    match h[p]? with
    | none => none
    | some node =>
      if node.data ∈ visited then bfsPush h visited ps d
      else bfsPush h visited ps (d ++ [node])

/-- One iteration of the `while (!d.empty())` loop body. -/
def bfsStep {T : Type} [DecidableEq T] (h : Heap T) (s : BfsState T) :
    Option (BfsState T) :=
  match s.d with
  | [] => some s
  | d0 :: rest =>
    if d0.data ∈ s.visited then
      some { s with d := rest }
    else
      match bfsPush h (s.visited.insert d0.data) d0.adjacencyList (d0 :: rest) with
      | none => none
      | some d' =>
        some { d := d'.tail, result := s.result ++ [d0.data],
               visited := s.visited.insert d0.data }

/-- The `while (!d.empty())` loop; the fuel bounds the number of iterations. -/
def bfsLoop {T : Type} [DecidableEq T] (h : Heap T) : Nat → BfsState T → Option (List T)
  | 0, s => if s.d.isEmpty then some s.result else none
  | fuel + 1, s =>
    if s.d.isEmpty then some s.result
    else
      match bfsStep h s with
      | none => none
      | some s' => bfsLoop h fuel s'

/-- Sum of the adjacency-list lengths of the heap objects. -/
def Heap.edgeCount {T : Type} (h : Heap T) : Nat :=
  (h.map (fun n => n.adjacencyList.length)).sum

/-- Method `Graph::breadthFirstTraversal`. Every iteration pops one element and
only a newly recorded node pushes, hence the fuel. -/
def breadthFirstTraversal {T : Type} [DecidableEq T] (h : Heap T) (g : Graph T) :
    Option (List T) :=
  match g.nodes with
  | [] => some []
  | n0 :: _ =>
    bfsLoop h (1 + n0.adjacencyList.length + h.edgeCount)
      { d := [n0], result := [], visited := [] }

/-! ## Search -/

/-- Function `std::find` on iterators taken as indices: position of the first
element equal to `value`, or the length (`cend`) when there is none. -/
def stdFind {T : Type} [DecidableEq T] : List T → T → Nat
  | [], _ => 0
  | x :: xs, value => if x = value then 0 else stdFind xs value + 1

/-- Method `Graph::find`. -/
def find {T : Type} [DecidableEq T] (h : Heap T) (g : Graph T) (value : T) : Option Bool :=
  match depthFirstTraversal h g with
  | none => none
  | some nodes => some (stdFind nodes value != nodes.length)

/-! ## Specification vocabulary -/

/-- Node `u` is reached from `root` by a path of exactly `k` adjacency edges. -/
inductive ReachIn {T : Type} (h : Heap T) (root : Node T) : Nat → Node T → Prop
  | zero : ReachIn h root 0 root
  | succ {k : Nat} {u w : Node T} {p : Nat} :
      ReachIn h root k u → p ∈ u.adjacencyList → h[p]? = some w → ReachIn h root (k + 1) w

/-- Node `u` is reachable from `root` by a path of adjacency edges (`root`
itself included). -/
inductive Reach {T : Type} (h : Heap T) (root : Node T) : Node T → Prop
  | refl : Reach h root root
  | step {u w : Node T} {p : Nat} :
      Reach h root u → p ∈ u.adjacencyList → h[p]? = some w → Reach h root w

/-- Shortest-path distance: `k` is the least number of adjacency edges of a
path from `root` to `u`. -/
def IsDist {T : Type} (h : Heap T) (root : Node T) (u : Node T) (k : Nat) : Prop :=
  ReachIn h root k u ∧ ∀ j, ReachIn h root j u → k ≤ j

/-- Node `u` is reachable from `nodes[0]` of the graph. -/
def Reachable {T : Type} (h : Heap T) (g : Graph T) (u : Node T) : Prop :=
  ∃ n0, g.nodes.head? = some n0 ∧ Reach h n0 u

/-- Every pointer of the node is the address of a live heap object. -/
def Live {T : Type} (h : Heap T) (n : Node T) : Prop :=
  ∀ p ∈ n.adjacencyList, p < h.length

instance {T : Type} (h : Heap T) (n : Node T) : Decidable (Live h n) :=
  inferInstanceAs (Decidable (∀ p ∈ n.adjacencyList, p < h.length))

/-- No dangling pointer: the pointers of every heap object and of `nodes[0]`
address live heap objects (the lifetime precondition of the source). -/
def WellFormed {T : Type} (h : Heap T) (g : Graph T) : Prop :=
  (∀ n ∈ h, Live h n) ∧ (∀ n0 ∈ g.nodes.head?, Live h n0)

instance {T : Type} (h : Heap T) (g : Graph T) : Decidable (WellFormed h g) :=
  inferInstanceAs (Decidable ((∀ n ∈ h, Live h n) ∧ (∀ n0 ∈ g.nodes.head?, Live h n0)))

/-- Nodes reachable from `root` that carry the same data are the same node
(same data and same adjacency references). -/
def DistinctData {T : Type} (h : Heap T) (root : Node T) : Prop :=
  ∀ a b, Reach h root a → Reach h root b → a.data = b.data → a = b

/-- Every pointer of `u` addresses a heap object whose data is in `V`. -/
def Closed {T : Type} (h : Heap T) (V : List T) (u : Node T) : Prop :=
  ∀ p ∈ u.adjacencyList, ∃ c, h[p]? = some c ∧ c.data ∈ V

/-- Effect of a depth-first call (or of a run of the children loop) from state
`s` to state `s'`: the values `new` are appended, they are exactly the newly
visited data, they are fresh and pairwise different, and each is carried by
a node satisfying `R` all of whose neighbours are visited in `s'`. -/
def DfsPost {T : Type} (h : Heap T) (R : Node T → Prop) (s s' : DfsState T)
    (new : List T) : Prop :=
  s'.values = s.values ++ new ∧
  (∀ x, x ∈ s'.visited ↔ x ∈ s.visited ∨ x ∈ new) ∧
  (∀ x ∈ new, x ∉ s.visited) ∧
  new.Nodup ∧
  (∀ x ∈ new, ∃ u, R u ∧ u.data = x ∧ Closed h s'.visited u)

/-- Number of distinct heap data values not yet in `visited`. -/
def unvisitedCount {T : Type} [DecidableEq T] (h : Heap T) (visited : List T) : Nat :=
  ((h.map (fun n => n.data)).toFinset \ visited.toFinset).card

/-- Sum of the adjacency-list lengths of the heap objects whose data is not yet
in `visited`. -/
def pendingEdges {T : Type} [DecidableEq T] (h : Heap T) (visited : List T) : Nat :=
  (h.map (fun n => if n.data ∈ visited then 0 else n.adjacencyList.length)).sum

/-- The heap objects addressed by a list of pointers, in order. -/
def children {T : Type} (h : Heap T) (ps : List Nat) : List (Node T) :=
  ps.filterMap (fun p => h[p]?)

/-- Loop invariant of `breadthFirstTraversal` started at `n0`: `visited` holds
exactly the recorded values, these are pairwise different, the frontier holds
reachable nodes only, and every recorded value is carried by a reachable node
each of whose neighbours is visited or waiting in the frontier. -/
def BfsInv {T : Type} (h : Heap T) (n0 : Node T) (s : BfsState T) : Prop :=
  (∀ v, v ∈ s.visited ↔ v ∈ s.result) ∧
  s.result.Nodup ∧
  (∀ n ∈ s.d, Reach h n0 n) ∧
  (∀ v ∈ s.result, ∃ u, Reach h n0 u ∧ u.data = v ∧
    ∀ p ∈ u.adjacencyList, ∃ c, h[p]? = some c ∧ (c.data ∈ s.visited ∨ c ∈ s.d))

/-- Level bookkeeping for the loop of `breadthFirstTraversal`: `Q` is the
frontier and `R` the recorded nodes, each entry paired with the length of
the path along which it was pushed. The lengths never decrease along
`R ++ Q`, those in the frontier differ by at most one, a recorded length is
the shortest-path distance of its node, and every neighbour of a recorded
node is visited or waits in the frontier one level further. -/
def BfsLevels {T : Type} (h : Heap T) (n0 : Node T) (s : BfsState T)
    (Q R : List (Node T × Nat)) : Prop :=
  s.d = Q.map Prod.fst ∧
  s.result = R.map (fun x => x.1.data) ∧
  (∀ v, v ∈ s.visited ↔ v ∈ s.result) ∧
  (∀ x ∈ Q, ReachIn h n0 x.2 x.1) ∧
  (∀ x ∈ R, IsDist h n0 x.1 x.2) ∧
  ((R ++ Q).map Prod.snd).Pairwise (fun a b => a ≤ b) ∧
  (∀ x ∈ Q, ∀ y ∈ Q, y.2 ≤ x.2 + 1) ∧
  (∀ x ∈ R, ∀ p ∈ x.1.adjacencyList, ∀ c, h[p]? = some c →
    c.data ∈ s.visited ∨ (c, x.2 + 1) ∈ Q) ∧
  (n0.data ∈ s.visited ∨ Q = [(n0, 0)])

/-- Loop invariant of `breadthFirstTraversal` with the level bookkeeping hidden. -/
def BfsLevelInv {T : Type} (h : Heap T) (n0 : Node T) (s : BfsState T) : Prop :=
  ∃ Q R, BfsLevels h n0 s Q R

/-! ## Tie-break vocabulary -/

/-- The values of `xs` in order, without those in `seen` and keeping only the
first occurrence of each repeated value. -/
def keepFirstUnseen {T : Type} [DecidableEq T] : List T → List T → List T
  | _, [] => []
  | seen, x :: xs =>
    if x ∈ seen then keepFirstUnseen seen xs else x :: keepFirstUnseen (x :: seen) xs

/-! ## Call and iteration counting

Copies of the traversals that carry ghost counters next to the state: the
number of calls of `depthFirstImpl`, and for the breadth-first loop the
number of iterations and the nodes that were recorded. The theorems show
that dropping the counters gives back the traversals above. -/

/-- The children loop of `depthFirstImpl`, also counting the calls of
`depthFirstImpl` made in it and below. -/
def dfsChildrenCalls {T : Type} [DecidableEq T] (h : Heap T)
    (recurse : Node T → DfsState T → Option (DfsState T × Nat)) :
    List Nat → DfsState T → Option (DfsState T × Nat)
  | [], s => some (s, 0)
  | p :: ps, s =>
    match h[p]? with
    | none => none
    | some child =>
      if child.data ∈ s.visited then
        dfsChildrenCalls h recurse ps s
      else
        match recurse child s with
        | none => none
        | some (s', k) =>
          match dfsChildrenCalls h recurse ps s' with
          | none => none
          | some (s'', k') => some (s'', k + k')

/-- Method `Graph::depthFirstImpl`, also counting its calls, this one included. -/
def depthFirstImplCalls {T : Type} [DecidableEq T] (h : Heap T) :
    Nat → Node T → DfsState T → Option (DfsState T × Nat)
  | 0, _, _ => none
  | fuel + 1, n, s =>
    match dfsChildrenCalls h (depthFirstImplCalls h fuel) n.adjacencyList
      { values := s.values ++ [n.data], visited := s.visited.insert n.data } with
    | none => none
    | some (s', k) => some (s', k + 1)

/-- Method `Graph::depthFirstTraversal`, also returning the number of calls of
`depthFirstImpl`. -/
def depthFirstTraversalCalls {T : Type} [DecidableEq T] (h : Heap T) (g : Graph T) :
    Option (List T × Nat) :=
  match g.nodes with
  | [] => some ([], 0)
  | n0 :: _ =>
    match depthFirstImplCalls h (h.length + 1) n0 { values := [], visited := [] } with
    | none => none
    | some (s, k) => some (s.values, k)

/-- Number of distinct data values carried by the stored nodes and the heap
objects. -/
def distinctDataCount {T : Type} [DecidableEq T] (h : Heap T) (g : Graph T) : Nat :=
  ((g.nodes ++ h).map (fun n => n.data)).dedup.length

/-- The front node of the frontier when the coming iteration records it. -/
def recordedNow {T : Type} [DecidableEq T] (s : BfsState T) : List (Node T) :=
  match s.d with
  | [] => []
  | d0 :: _ => if d0.data ∈ s.visited then [] else [d0]

/-- The `while (!d.empty())` loop, also returning the number of iterations and
the nodes recorded, in order. -/
def bfsLoopTrace {T : Type} [DecidableEq T] (h : Heap T) :
    Nat → BfsState T → Option (List T × Nat × List (Node T))
  | 0, s => if s.d.isEmpty then some (s.result, 0, []) else none
  | fuel + 1, s =>
    if s.d.isEmpty then some (s.result, 0, [])
    else
      match bfsStep h s with
      | none => none
      | some s' =>
        match bfsLoopTrace h fuel s' with
        | none => none
        | some (r, k, recorded) => some (r, k + 1, recordedNow s ++ recorded)

/-- Method `Graph::breadthFirstTraversal`, also returning the number of loop
iterations and the nodes recorded. -/
def breadthFirstTraversalTrace {T : Type} [DecidableEq T] (h : Heap T) (g : Graph T) :
    Option (List T × Nat × List (Node T)) :=
  match g.nodes with
  | [] => some ([], 0, [])
  | n0 :: _ =>
    bfsLoopTrace h (1 + n0.adjacencyList.length + h.edgeCount)
      { d := [n0], result := [], visited := [] }

/-! ## The objects of `testGraph` -/

/-- Objects `n1 .. n5` of `testGraph` after the five `setAdjacencyList` calls,
at addresses `0 .. 4`. -/
def testHeap : Heap Nat :=
  [ { data := 1, adjacencyList := [1] },
    { data := 2, adjacencyList := [0, 2, 3] },
    { data := 3, adjacencyList := [1, 3] },
    { data := 4, adjacencyList := [1, 2, 4] },
    { data := 5, adjacencyList := [3] } ]

/-- Graph `g` of `testGraph`: copies of `n1 .. n5` in that order. -/
def testGraph : Graph Nat :=
  Graph.new testHeap

/-- Three objects `a -> b -> c` where `a` and `b` both carry the value 1 and
`c` carries 2. -/
def dupHeap : Heap Nat :=
  [ { data := 1, adjacencyList := [1] },
    { data := 1, adjacencyList := [2] },
    { data := 2, adjacencyList := [] } ]

/-- Graph built from copies of the objects of `dupHeap`. -/
def dupGraph : Graph Nat :=
  Graph.new dupHeap

/-- Objects `1 <-> 2` and an object 3 that points at 1 but that nothing points
at. -/
def islandHeap : Heap Nat :=
  [ { data := 1, adjacencyList := [1] },
    { data := 2, adjacencyList := [0] },
    { data := 3, adjacencyList := [0] } ]

/-- Graph storing copies of the objects of `islandHeap` with the unreachable
one in the middle of the sequence. -/
def islandGraph : Graph Nat :=
  Graph.new [ { data := 1, adjacencyList := [1] },
              { data := 3, adjacencyList := [0] },
              { data := 2, adjacencyList := [0] } ]

/-- Objects with a self-loop, a cycle, a repeated adjacency entry and two
objects carrying the value 1. -/
def tangleHeap : Heap Nat :=
  [ { data := 1, adjacencyList := [0, 1, 1, 2] },
    { data := 2, adjacencyList := [0, 1, 3] },
    { data := 1, adjacencyList := [1] },
    { data := 3, adjacencyList := [3, 0] } ]

/-- Graph built from copies of the objects of `tangleHeap`. -/
def tangleGraph : Graph Nat :=
  Graph.new tangleHeap

/-- Graph that stores a copy of `n1` only; `n2 .. n5` are reached through the
pointers. -/
def testGraphFirstOnly : Graph Nat :=
  Graph.new [ { data := 1, adjacencyList := [1] } ]

/-- Objects `n1 .. n5` of `testGraph` as constructed, before any
`setAdjacencyList` call. -/
def testHeapFresh : Heap Nat :=
  [Node.new 1, Node.new 2, Node.new 3, Node.new 4, Node.new 5]

/-- Objects `n1 .. n5` after `n1.setAdjacencyList` and `n2.setAdjacencyList`. -/
def testHeapTwoSet : Heap Nat :=
  [ { data := 1, adjacencyList := [1] },
    { data := 2, adjacencyList := [0, 2, 3] },
    Node.new 3, Node.new 4, Node.new 5 ]

/-- The five `setAdjacencyList` calls of `testGraph`, in order, on the fresh
objects. -/
def testHeapBuilt : Option (Heap Nat) :=
  match testHeapFresh.setAdjacencyList 0 [1] with
  | none => none
  | some h1 =>
    match h1.setAdjacencyList 1 [0, 2, 3] with
    | none => none
    | some h2 =>
      match h2.setAdjacencyList 2 [1, 3] with
      | none => none
      | some h3 =>
        match h3.setAdjacencyList 3 [1, 2, 4] with
        | none => none
        | some h4 => h4.setAdjacencyList 4 [3]

/-! ## Reachability -/

theorem Reach.trans {T : Type} {h : Heap T} {a b c : Node T}
    (hab : Reach h a b) (hbc : Reach h b c) : Reach h a c := by
  induction hbc with
  | refl => exact hab
  | step _ hp hw ih => exact Reach.step ih hp hw

theorem Reach.child {T : Type} {h : Heap T} {n c : Node T} {p : Nat}
    (hp : p ∈ n.adjacencyList) (hc : h[p]? = some c) : Reach h n c :=
  Reach.step Reach.refl hp hc

theorem ReachIn.reach {T : Type} {h : Heap T} {root u : Node T} {k : Nat}
    (hk : ReachIn h root k u) : Reach h root u := by
  induction hk with
  | zero => exact Reach.refl
  | succ _ hp hw ih => exact Reach.step ih hp hw

theorem Reach.reachIn {T : Type} {h : Heap T} {root u : Node T}
    (hu : Reach h root u) : ∃ k, ReachIn h root k u := by
  induction hu with
  | refl => exact ⟨0, ReachIn.zero⟩
  | step _ hp hw ih =>
    obtain ⟨k, hk⟩ := ih
    exact ⟨k + 1, ReachIn.succ hk hp hw⟩

theorem Reach.mem_heap {T : Type} {h : Heap T} {root u : Node T}
    (hu : Reach h root u) : u = root ∨ u ∈ h := by
  induction hu with
  | refl => exact Or.inl rfl
  | step _ _ hw _ => exact Or.inr (List.getElem?_mem hw)

theorem distinctData_of_forall {T : Type} {h : Heap T} {root : Node T}
    (hall : ∀ a ∈ root :: h, ∀ b ∈ root :: h, a.data = b.data → a = b) :
    DistinctData h root := by
  intro a b ha hb hab
  have ha' : a ∈ root :: h := by
    rcases ha.mem_heap with e | e
    · simp [e]
    · exact List.mem_cons_of_mem _ e
  have hb' : b ∈ root :: h := by
    rcases hb.mem_heap with e | e
    · simp [e]
    · exact List.mem_cons_of_mem _ e
  exact hall a ha' b hb' hab

theorem Closed.mono {T : Type} {h : Heap T} {V W : List T} {u : Node T}
    (hc : Closed h V u) (hVW : ∀ x, x ∈ V → x ∈ W) : Closed h W u := by
  intro p hp
  obtain ⟨c, hc1, hc2⟩ := hc p hp
  exact ⟨c, hc1, hVW _ hc2⟩

/-! ## Depth-first traversal: effect of a call -/

theorem DfsPost.visited_mono {T : Type} {h : Heap T} {R : Node T → Prop}
    {s s' : DfsState T} {new : List T} (hp : DfsPost h R s s' new) :
    ∀ x, x ∈ s.visited → x ∈ s'.visited :=
  fun x hx => (hp.2.1 x).2 (Or.inl hx)

theorem dfsChildren_post {T : Type} [DecidableEq T] (h : Heap T)
    (recurse : Node T → DfsState T → Option (DfsState T))
    (hrec : ∀ c s s', c.data ∉ s.visited → recurse c s = some s' →
      ∃ rest, DfsPost h (Reach h c) s s' (c.data :: rest)) :
    ∀ (ps : List Nat) (s s' : DfsState T), dfsChildren h recurse ps s = some s' →
      (∃ new, DfsPost h (fun u => ∃ p ∈ ps, ∃ c, h[p]? = some c ∧ Reach h c u) s s' new) ∧
      (∀ p ∈ ps, ∃ c, h[p]? = some c ∧ c.data ∈ s'.visited) := by
  intro ps
  induction ps with
  | nil =>
    intro s s' hrun
    simp only [dfsChildren, Option.some.injEq] at hrun
    subst hrun
    refine ⟨⟨[], ?_, ?_, ?_, ?_, ?_⟩, ?_⟩ <;> simp
  | cons p ps ih =>
    intro s s' hrun
    unfold dfsChildren at hrun
    cases hp : h[p]? with
    | none => simp [hp] at hrun
    | some child =>
      simp only [hp] at hrun
      by_cases hv : child.data ∈ s.visited
      · simp only [hv, if_true] at hrun
        obtain ⟨⟨new, h1, h2, h3, h4, h5⟩, h6⟩ := ih s s' hrun
        refine ⟨⟨new, h1, h2, h3, h4, ?_⟩, ?_⟩
        · intro x hx
          obtain ⟨u, ⟨q, hq, c, hc, hr⟩, hu⟩ := h5 x hx
          exact ⟨u, ⟨q, List.mem_cons_of_mem _ hq, c, hc, hr⟩, hu⟩
        · intro q hq
          rcases List.mem_cons.1 hq with e | e
          · subst e
            exact ⟨child, hp, (h2 _).2 (Or.inl hv)⟩
          · exact h6 q e
      · simp only [hv, if_false] at hrun
        cases hr : recurse child s with
        | none => simp [hr] at hrun
        | some s1 =>
          simp only [hr] at hrun
          obtain ⟨rest, a1, a2, a3, a4, a5⟩ := hrec child s s1 hv hr
          obtain ⟨⟨new, b1, b2, b3, b4, b5⟩, b6⟩ := ih s1 s' hrun
          have hmono : ∀ x, x ∈ s1.visited → x ∈ s'.visited :=
            fun x hx => (b2 x).2 (Or.inl hx)
          refine ⟨⟨(child.data :: rest) ++ new, ?_, ?_, ?_, ?_, ?_⟩, ?_⟩
          · rw [b1, a1, List.append_assoc]
          · intro x
            rw [b2, a2, List.mem_append, or_assoc]
          · intro x hx
            rcases List.mem_append.1 hx with e | e
            · exact a3 x e
            · exact fun hxs => b3 x e ((a2 x).2 (Or.inl hxs))
          · rw [List.nodup_append]
            refine ⟨a4, b4, ?_⟩
            intro x hx1 hx2
            exact b3 x hx2 ((a2 x).2 (Or.inr hx1))
          · intro x hx
            rcases List.mem_append.1 hx with e | e
            · obtain ⟨u, hu1, hu2, hu3⟩ := a5 x e
              exact ⟨u, ⟨p, List.mem_cons_self _ _, child, hp, hu1⟩, hu2, hu3.mono hmono⟩
            · obtain ⟨u, ⟨q, hq, c, hc, hr'⟩, hu⟩ := b5 x e
              exact ⟨u, ⟨q, List.mem_cons_of_mem _ hq, c, hc, hr'⟩, hu⟩
          · intro q hq
            rcases List.mem_cons.1 hq with e | e
            · subst e
              exact ⟨child, hp, hmono _ ((a2 _).2 (Or.inr (List.mem_cons_self _ _)))⟩
            · exact b6 q e

theorem depthFirstImpl_post {T : Type} [DecidableEq T] (h : Heap T) :
    ∀ (fuel : Nat) (n : Node T) (s s' : DfsState T), n.data ∉ s.visited →
      depthFirstImpl h fuel n s = some s' →
      ∃ rest, DfsPost h (Reach h n) s s' (n.data :: rest) := by
  intro fuel
  induction fuel with
  | zero =>
    intro n s s' _ hrun
    simp [depthFirstImpl] at hrun
  | succ fuel ih =>
    intro n s s' hn hrun
    simp only [depthFirstImpl] at hrun
    obtain ⟨⟨new, b1, b2, b3, b4, b5⟩, b6⟩ :=
      dfsChildren_post h (depthFirstImpl h fuel) (ih) n.adjacencyList _ s' hrun
    simp only at b1 b2 b3
    refine ⟨new, ?_, ?_, ?_, ?_, ?_⟩
    · rw [b1, List.append_assoc]
      rfl
    · intro x
      rw [b2, List.mem_insert_iff, List.mem_cons]
      tauto
    · intro x hx
      rcases List.mem_cons.1 hx with e | e
      · subst e
        exact hn
      · exact fun hxs => b3 x e (List.mem_insert_of_mem hxs)
    · rw [List.nodup_cons]
      exact ⟨fun hmem => b3 _ hmem (List.mem_insert_self _ _), b4⟩
    · intro x hx
      rcases List.mem_cons.1 hx with e | e
      · subst e
        exact ⟨n, Reach.refl, rfl, b6⟩
      · obtain ⟨u, ⟨q, hq, c, hc, hr⟩, hu⟩ := b5 x e
        exact ⟨u, (Reach.child hq hc).trans hr, hu⟩

/-! ## Depth-first traversal: the fuel suffices -/

theorem unvisitedCount_mono {T : Type} [DecidableEq T] (h : Heap T) {V W : List T}
    (hVW : ∀ x, x ∈ V → x ∈ W) : unvisitedCount h W ≤ unvisitedCount h V := by
  unfold unvisitedCount
  apply Finset.card_le_card
  intro x hx
  simp only [Finset.mem_sdiff, List.mem_toFinset] at hx ⊢
  exact ⟨hx.1, fun hxV => hx.2 (hVW x hxV)⟩

theorem unvisitedCount_insert_lt {T : Type} [DecidableEq T] (h : Heap T) {V : List T}
    {n : Node T} (hn : n ∈ h) (hv : n.data ∉ V) :
    unvisitedCount h (V.insert n.data) < unvisitedCount h V := by
  unfold unvisitedCount
  apply Finset.card_lt_card
  rw [Finset.ssubset_iff_of_subset]
  · refine ⟨n.data, ?_, ?_⟩
    · simp only [Finset.mem_sdiff, List.mem_toFinset, List.mem_map]
      exact ⟨⟨n, hn, rfl⟩, hv⟩
    · simp only [Finset.mem_sdiff, List.mem_toFinset, List.mem_insert_iff]
      tauto
  · intro x hx
    simp only [Finset.mem_sdiff, List.mem_toFinset, List.mem_insert_iff] at hx ⊢
    exact ⟨hx.1, fun hxV => hx.2 (Or.inr hxV)⟩

theorem unvisitedCount_le_length {T : Type} [DecidableEq T] (h : Heap T) (V : List T) :
    unvisitedCount h V ≤ h.length := by
  unfold unvisitedCount
  calc ((h.map (fun n => n.data)).toFinset \ V.toFinset).card
      ≤ (h.map (fun n => n.data)).toFinset.card := Finset.card_le_card Finset.sdiff_subset
    _ ≤ (h.map (fun n => n.data)).length := List.toFinset_card_le _
    _ = h.length := List.length_map _ _

theorem dfsChildren_total {T : Type} [DecidableEq T] (h : Heap T) (fuel : Nat)
    (ih : ∀ (c : Node T) (s : DfsState T), c ∈ h → c.data ∉ s.visited →
      unvisitedCount h s.visited ≤ fuel → ∃ s', depthFirstImpl h fuel c s = some s') :
    ∀ (ps : List Nat) (s : DfsState T), (∀ p ∈ ps, p < h.length) →
      unvisitedCount h s.visited ≤ fuel →
      ∃ s', dfsChildren h (depthFirstImpl h fuel) ps s = some s' := by
  intro ps
  induction ps with
  | nil =>
    intro s _ _
    exact ⟨s, rfl⟩
  | cons p ps ihps =>
    intro s hlive hcount
    have hp : p < h.length := hlive p (List.mem_cons_self _ _)
    have hps : ∀ q ∈ ps, q < h.length := fun q hq => hlive q (List.mem_cons_of_mem _ hq)
    have hget : h[p]? = some h[p] := List.getElem?_eq_getElem hp
    unfold dfsChildren
    simp only [hget]
    by_cases hv : h[p].data ∈ s.visited
    · simp only [hv, if_true]
      exact ihps s hps hcount
    · simp only [hv, if_false]
      obtain ⟨s1, hs1⟩ := ih h[p] s (List.getElem_mem hp) hv hcount
      simp only [hs1]
      obtain ⟨rest, hpost⟩ := depthFirstImpl_post h fuel h[p] s s1 hv hs1
      exact ihps s1 hps (le_trans (unvisitedCount_mono h hpost.visited_mono) hcount)

theorem depthFirstImpl_total {T : Type} [DecidableEq T] (h : Heap T)
    (hlive : ∀ n ∈ h, Live h n) :
    ∀ (fuel : Nat) (n : Node T) (s : DfsState T), n ∈ h → n.data ∉ s.visited →
      unvisitedCount h s.visited ≤ fuel → ∃ s', depthFirstImpl h fuel n s = some s' := by
  intro fuel
  induction fuel with
  | zero =>
    intro n s hn hv hcount
    have := unvisitedCount_insert_lt h hn hv
    omega
  | succ fuel ih =>
    intro n s hn hv hcount
    simp only [depthFirstImpl]
    apply dfsChildren_total h fuel ih _ _ (hlive n hn)
    have := unvisitedCount_insert_lt h hn hv
    simp only
    omega

/-- On a heap without dangling pointers the fuel of `depthFirstTraversal`
suffices: the traversal returns. -/
theorem depthFirstTraversal_total {T : Type} [DecidableEq T] (h : Heap T) (g : Graph T)
    (hwf : WellFormed h g) : ∃ vs, depthFirstTraversal h g = some vs := by
  obtain ⟨hheap, hroot⟩ := hwf
  cases hg : g.nodes with
  | nil => exact ⟨[], by simp [depthFirstTraversal, hg]⟩
  | cons m rest =>
    have hlive : Live h m := hroot m (by simp [hg])
    obtain ⟨s', hs'⟩ : ∃ s', depthFirstImpl h (h.length + 1) m
        { values := [], visited := [] } = some s' := by
      simp only [depthFirstImpl]
      exact dfsChildren_total h h.length
        (depthFirstImpl_total h hheap h.length) _ _ hlive (unvisitedCount_le_length h _)
    exact ⟨s'.values, by simp only [depthFirstTraversal, hg, hs']⟩

/-- Summary of a depth-first traversal from `nodes[0] = n0` that returns `vs`:
`vs` starts with `n0.data`, is duplicate-free, and every value of it is
carried by a reachable node all of whose neighbours have their data in `vs`. -/
theorem depthFirstTraversal_post {T : Type} [DecidableEq T] (h : Heap T) (g : Graph T)
    (n0 : Node T) (hn0 : g.nodes.head? = some n0) (vs : List T)
    (hrun : depthFirstTraversal h g = some vs) :
    (∃ new, vs = n0.data :: new) ∧ vs.Nodup ∧
      ∀ x ∈ vs, ∃ u, Reach h n0 u ∧ u.data = x ∧ Closed h vs u := by
  cases hg : g.nodes with
  | nil => simp [hg] at hn0
  | cons m rest =>
    rw [hg] at hn0
    simp only [List.head?_cons, Option.some.injEq] at hn0
    subst hn0
    simp only [depthFirstTraversal, hg] at hrun
    cases hs : depthFirstImpl h (h.length + 1) m { values := [], visited := [] } with
    | none => simp [hs] at hrun
    | some s' =>
      simp only [hs, Option.some.injEq] at hrun
      obtain ⟨new, a1, a2, _, a4, a5⟩ :=
        depthFirstImpl_post h _ m _ s' (List.not_mem_nil _) hs
      simp only [List.nil_append] at a1
      rw [← hrun, a1]
      refine ⟨⟨new, rfl⟩, a4, ?_⟩
      intro x hx
      obtain ⟨u, hu1, hu2, hu3⟩ := a5 x hx
      refine ⟨u, hu1, hu2, hu3.mono ?_⟩
      intro y hy
      simpa using (a2 y).1 hy

theorem closed_reach {T : Type} {h : Heap T} {n0 : Node T} {V : List T}
    (hd : DistinctData h n0) (h0 : n0.data ∈ V)
    (hV : ∀ x ∈ V, ∃ u, Reach h n0 u ∧ u.data = x ∧ Closed h V u) :
    ∀ w, Reach h n0 w → w.data ∈ V := by
  intro w hw
  induction hw with
  | refl => exact h0
  | step hu hp hc ih =>
    rename_i u w p
    obtain ⟨u', hu'1, hu'2, hu'3⟩ := hV _ ih
    have hEq : u' = u := hd u' u hu'1 hu hu'2
    subst hEq
    obtain ⟨c, hc1, hc2⟩ := hu'3 p hp
    rw [hc] at hc1
    cases hc1
    exact hc2

/-! ## Breadth-first traversal: one iteration -/

theorem mem_children {T : Type} {h : Heap T} {ps : List Nat} {c : Node T} :
    c ∈ children h ps ↔ ∃ p ∈ ps, h[p]? = some c := by
  simp [children, List.mem_filterMap]

theorem bfsPush_eq {T : Type} [DecidableEq T] (h : Heap T) (V : List T) :
    ∀ (ps : List Nat) (d d' : List (Node T)), bfsPush h V ps d = some d' →
      (∀ p ∈ ps, p < h.length) ∧
      d' = d ++ (children h ps).filter (fun c => decide (c.data ∉ V)) := by
  intro ps
  induction ps with
  | nil =>
    intro d d' hrun
    simp only [bfsPush, Option.some.injEq] at hrun
    simp [children, hrun]
  | cons p ps ih =>
    intro d d' hrun
    unfold bfsPush at hrun
    cases hp : h[p]? with
    | none => simp [hp] at hrun
    | some node =>
      have hlt : p < h.length := by
        by_contra hge
        rw [List.getElem?_eq_none (Nat.le_of_not_lt hge)] at hp
        cases hp
      simp only [hp] at hrun
      by_cases hv : node.data ∈ V
      · simp only [hv, if_true] at hrun
        obtain ⟨h1, h2⟩ := ih d d' hrun
        refine ⟨?_, ?_⟩
        · intro q hq
          rcases List.mem_cons.1 hq with e | e
          · exact e ▸ hlt
          · exact h1 q e
        · simp only [children, List.filterMap_cons, hp] at h2 ⊢
          simp [h2, List.filter_cons, hv]
      · simp only [hv, if_false] at hrun
        obtain ⟨h1, h2⟩ := ih _ d' hrun
        refine ⟨?_, ?_⟩
        · intro q hq
          rcases List.mem_cons.1 hq with e | e
          · exact e ▸ hlt
          · exact h1 q e
        · simp only [children, List.filterMap_cons, hp] at h2 ⊢
          simp [h2, List.filter_cons, hv]

theorem bfsPush_total {T : Type} [DecidableEq T] (h : Heap T) (V : List T) :
    ∀ (ps : List Nat) (d : List (Node T)), (∀ p ∈ ps, p < h.length) →
      ∃ d', bfsPush h V ps d = some d' := by
  intro ps
  induction ps with
  | nil => exact fun d _ => ⟨d, rfl⟩
  | cons p ps ih =>
    intro d hlive
    have hp : p < h.length := hlive p (List.mem_cons_self _ _)
    have hps : ∀ q ∈ ps, q < h.length := fun q hq => hlive q (List.mem_cons_of_mem _ hq)
    unfold bfsPush
    simp only [List.getElem?_eq_getElem hp]
    by_cases hv : h[p].data ∈ V
    · simp only [hv, if_true]
      exact ih d hps
    · simp only [hv, if_false]
      exact ih _ hps

/-- The two outcomes of one loop iteration on a non-empty frontier: the front
node is dropped because its data is visited, or it is recorded and its
unvisited neighbours are pushed at the back. -/
theorem bfsStep_cases {T : Type} [DecidableEq T] (h : Heap T) (s s' : BfsState T)
    (d0 : Node T) (rest : List (Node T)) (hd : s.d = d0 :: rest)
    (hrun : bfsStep h s = some s') :
    (d0.data ∈ s.visited ∧ s' = { s with d := rest }) ∨
    (d0.data ∉ s.visited ∧ Live h d0 ∧
      s' = { d := rest ++ (children h d0.adjacencyList).filter
                   (fun c => decide (c.data ∉ s.visited.insert d0.data)),
             result := s.result ++ [d0.data],
             visited := s.visited.insert d0.data }) := by
  unfold bfsStep at hrun
  rw [hd] at hrun
  simp only at hrun
  by_cases hv : d0.data ∈ s.visited
  · left
    simp only [hv, if_true, Option.some.injEq] at hrun
    exact ⟨hv, hrun.symm⟩
  · right
    simp only [hv, if_false] at hrun
    cases hpush : bfsPush h (s.visited.insert d0.data) d0.adjacencyList (d0 :: rest) with
    | none => simp [hpush] at hrun
    | some d' =>
      simp only [hpush, Option.some.injEq] at hrun
      obtain ⟨h1, h2⟩ := bfsPush_eq h _ _ _ _ hpush
      refine ⟨hv, h1, ?_⟩
      rw [← hrun, h2]
      simp

theorem bfsLoop_induct {T : Type} [DecidableEq T] (h : Heap T) (Inv : BfsState T → Prop)
    (hstep : ∀ s s', Inv s → s.d ≠ [] → bfsStep h s = some s' → Inv s') :
    ∀ (fuel : Nat) (s : BfsState T) (r : List T), Inv s → bfsLoop h fuel s = some r →
      ∃ s', Inv s' ∧ s'.d = [] ∧ s'.result = r := by
  intro fuel
  induction fuel with
  | zero =>
    intro s r hinv hrun
    simp only [bfsLoop] at hrun
    by_cases hd : s.d = []
    · simp only [hd, List.isEmpty_nil, if_true, Option.some.injEq] at hrun
      exact ⟨s, hinv, hd, hrun⟩
    · simp [List.isEmpty_iff, hd] at hrun
  | succ fuel ih =>
    intro s r hinv hrun
    simp only [bfsLoop] at hrun
    by_cases hd : s.d = []
    · simp only [hd, List.isEmpty_nil, if_true, Option.some.injEq] at hrun
      exact ⟨s, hinv, hd, hrun⟩
    · simp only [List.isEmpty_iff, hd, if_false] at hrun
      cases hs : bfsStep h s with
      | none => simp [hs] at hrun
      | some s1 =>
        simp only [hs] at hrun
        exact ih s1 r (hstep s s1 hinv hd hs) hrun

/-! ## Breadth-first traversal: the loop invariant -/

theorem bfsInv_init {T : Type} [DecidableEq T] (h : Heap T) (n0 : Node T) :
    BfsInv h n0 { d := [n0], result := [], visited := [] } := by
  refine ⟨fun v => Iff.rfl, List.nodup_nil, ?_, ?_⟩
  · intro n hn
    rw [List.mem_singleton.1 hn]
    exact Reach.refl
  · intro v hv
    cases hv

theorem bfsInv_step {T : Type} [DecidableEq T] (h : Heap T) (n0 : Node T)
    (s s' : BfsState T) (hinv : BfsInv h n0 s) (hne : s.d ≠ [])
    (hrun : bfsStep h s = some s') : BfsInv h n0 s' := by
  obtain ⟨i1, i2, i3, i4⟩ := hinv
  cases hd : s.d with
  | nil => exact absurd hd hne
  | cons d0 rest =>
    rw [hd] at i3 i4
    have hd0 : Reach h n0 d0 := i3 d0 (List.mem_cons_self _ _)
    rcases bfsStep_cases h s s' d0 rest hd hrun with ⟨hv, hs'⟩ | ⟨hv, hlive, hs'⟩
    · subst hs'
      refine ⟨i1, i2, fun n hn => i3 n (List.mem_cons_of_mem _ hn), ?_⟩
      intro v hvr
      obtain ⟨u, hu1, hu2, hu3⟩ := i4 v hvr
      refine ⟨u, hu1, hu2, ?_⟩
      intro p hp
      obtain ⟨c, hc1, hc2⟩ := hu3 p hp
      refine ⟨c, hc1, ?_⟩
      rcases hc2 with e | e
      · exact Or.inl e
      · rcases List.mem_cons.1 e with e' | e'
        · exact Or.inl (e' ▸ hv)
        · exact Or.inr e'
    · subst hs'
      refine ⟨?_, ?_, ?_, ?_⟩
      · intro v
        simp only [List.mem_insert_iff, List.mem_append, List.mem_singleton, i1 v]
        tauto
      · rw [List.nodup_append]
        refine ⟨i2, List.nodup_singleton _, ?_⟩
        intro x hx1 hx2
        rw [List.mem_singleton.1 hx2] at hx1
        exact hv ((i1 _).2 hx1)
      · intro n hn
        rcases List.mem_append.1 hn with e | e
        · exact i3 n (List.mem_cons_of_mem _ e)
        · obtain ⟨p, hp, hc⟩ := mem_children.1 (List.mem_filter.1 e).1
          exact Reach.step hd0 hp hc
      · intro v hvr
        rcases List.mem_append.1 hvr with e | e
        · obtain ⟨u, hu1, hu2, hu3⟩ := i4 v e
          refine ⟨u, hu1, hu2, ?_⟩
          intro p hp
          obtain ⟨c, hc1, hc2⟩ := hu3 p hp
          refine ⟨c, hc1, ?_⟩
          rcases hc2 with e2 | e2
          · exact Or.inl (List.mem_insert_of_mem e2)
          · rcases List.mem_cons.1 e2 with e' | e'
            · exact Or.inl (e' ▸ List.mem_insert_self _ _)
            · exact Or.inr (List.mem_append_left _ e')
        · rw [List.mem_singleton.1 e]
          refine ⟨d0, hd0, rfl, ?_⟩
          intro p hp
          have hlt : p < h.length := hlive p hp
          refine ⟨h[p], List.getElem?_eq_getElem hlt, ?_⟩
          by_cases hc : h[p].data ∈ s.visited.insert d0.data
          · exact Or.inl hc
          · refine Or.inr (List.mem_append_right _ (List.mem_filter.2 ⟨?_, ?_⟩))
            · exact mem_children.2 ⟨p, hp, List.getElem?_eq_getElem hlt⟩
            · simpa using hc

/-! ## Breadth-first traversal: the fuel suffices -/

theorem pendingEdges_insert_le {T : Type} [DecidableEq T] (h : Heap T) (V : List T) (x : T) :
    pendingEdges h (V.insert x) ≤ pendingEdges h V := by
  unfold pendingEdges
  induction h with
  | nil => simp
  | cons n l ih =>
    simp only [List.map_cons, List.sum_cons]
    have : (if n.data ∈ V.insert x then 0 else n.adjacencyList.length) ≤
        (if n.data ∈ V then 0 else n.adjacencyList.length) := by
      by_cases h1 : n.data ∈ V
      · simp [h1, List.mem_insert_iff]
      · by_cases h2 : n.data ∈ V.insert x
        · simp [h2]
        · simp [h1, h2]
    omega

theorem pendingEdges_insert_mem {T : Type} [DecidableEq T] (h : Heap T) (V : List T)
    (n : Node T) (hn : n ∈ h) (hv : n.data ∉ V) :
    pendingEdges h (V.insert n.data) + n.adjacencyList.length ≤ pendingEdges h V := by
  induction h with
  | nil => cases hn
  | cons m l ih =>
    have hle := pendingEdges_insert_le l V n.data
    unfold pendingEdges at ih hle ⊢
    simp only [List.map_cons, List.sum_cons]
    rcases List.mem_cons.1 hn with e | e
    · subst e
      simp only [List.mem_insert_self, if_true, hv, if_false]
      omega
    · have ih' := ih e
      have : (if m.data ∈ V.insert n.data then 0 else m.adjacencyList.length) ≤
          (if m.data ∈ V then 0 else m.adjacencyList.length) := by
        by_cases h1 : m.data ∈ V
        · simp [h1, List.mem_insert_iff]
        · by_cases h2 : m.data ∈ V.insert n.data
          · simp [h2]
          · simp [h1, h2]
      omega

theorem pendingEdges_le_edgeCount {T : Type} [DecidableEq T] (h : Heap T) (V : List T) :
    pendingEdges h V ≤ h.edgeCount := by
  unfold pendingEdges Heap.edgeCount
  induction h with
  | nil => simp
  | cons n l ih =>
    simp only [List.map_cons, List.sum_cons]
    have : (if n.data ∈ V then 0 else n.adjacencyList.length) ≤ n.adjacencyList.length := by
      split <;> omega
    omega

theorem children_length_le {T : Type} (h : Heap T) (ps : List Nat) :
    (children h ps).length ≤ ps.length :=
  List.length_filterMap_le _ _

theorem bfsStep_total {T : Type} [DecidableEq T] (h : Heap T) (s : BfsState T)
    (d0 : Node T) (rest : List (Node T)) (hd : s.d = d0 :: rest) (hlive : Live h d0) :
    ∃ s', bfsStep h s = some s' := by
  unfold bfsStep
  rw [hd]
  simp only
  by_cases hv : d0.data ∈ s.visited
  · simp [hv]
  · obtain ⟨d', hd'⟩ := bfsPush_total h (s.visited.insert d0.data) d0.adjacencyList
      (d0 :: rest) hlive
    simp only [hv, if_false, hd']
    exact ⟨_, rfl⟩

theorem bfsLoop_total {T : Type} [DecidableEq T] (h : Heap T)
    (hlive : ∀ n ∈ h, Live h n) :
    ∀ (fuel : Nat) (s : BfsState T), (∀ n ∈ s.d, n ∈ h) →
      s.d.length + pendingEdges h s.visited ≤ fuel → ∃ r, bfsLoop h fuel s = some r := by
  intro fuel
  induction fuel with
  | zero =>
    intro s _ hle
    have : s.d = [] := List.length_eq_zero.1 (by omega)
    simp [bfsLoop, this]
  | succ fuel ih =>
    intro s hmem hle
    cases hd : s.d with
    | nil => simp [bfsLoop, hd]
    | cons d0 rest =>
      rw [hd] at hmem hle
      have hd0 : d0 ∈ h := hmem d0 (List.mem_cons_self _ _)
      obtain ⟨s1, hs1⟩ := bfsStep_total h s d0 rest hd (hlive d0 hd0)
      simp only [bfsLoop, hd, List.isEmpty_cons, hs1]
      simp only [Bool.false_eq_true, if_false]
      apply ih
      · rcases bfsStep_cases h s s1 d0 rest hd hs1 with ⟨_, e⟩ | ⟨_, _, e⟩
        · subst e
          exact fun n hn => hmem n (List.mem_cons_of_mem _ hn)
        · subst e
          intro n hn
          rcases List.mem_append.1 hn with e' | e'
          · exact hmem n (List.mem_cons_of_mem _ e')
          · obtain ⟨p, _, hc⟩ := mem_children.1 (List.mem_filter.1 e').1
            exact List.getElem?_mem hc
      · rcases bfsStep_cases h s s1 d0 rest hd hs1 with ⟨_, e⟩ | ⟨hv, _, e⟩
        · subst e
          simp only [List.length_cons] at hle ⊢
          omega
        · subst e
          have h1 := pendingEdges_insert_mem h s.visited d0 hd0 hv
          have h2 := List.length_filter_le
            (fun c => decide (c.data ∉ s.visited.insert d0.data))
            (children h d0.adjacencyList)
          have h3 := children_length_le h d0.adjacencyList
          simp only [List.length_cons, List.length_append] at hle ⊢
          omega

/-- On a heap without dangling pointers the fuel of `breadthFirstTraversal`
suffices: the loop ends. -/
theorem breadthFirstTraversal_total {T : Type} [DecidableEq T] (h : Heap T) (g : Graph T)
    (hwf : WellFormed h g) : ∃ vs, breadthFirstTraversal h g = some vs := by
  obtain ⟨hheap, hroot⟩ := hwf
  cases hg : g.nodes with
  | nil => exact ⟨[], by simp [breadthFirstTraversal, hg]⟩
  | cons m rest =>
    have hlive : Live h m := hroot m (by simp [hg])
    simp only [breadthFirstTraversal, hg]
    obtain ⟨s1, hs1⟩ := bfsStep_total h { d := [m], result := [], visited := [] }
      m [] rfl hlive
    have hfuel : 1 + m.adjacencyList.length + h.edgeCount =
        (m.adjacencyList.length + h.edgeCount) + 1 := by omega
    rw [hfuel]
    simp only [bfsLoop, List.isEmpty_cons, hs1]
    simp only [Bool.false_eq_true, if_false]
    rcases bfsStep_cases h _ s1 m [] rfl hs1 with ⟨hv, _⟩ | ⟨_, _, e⟩
    · cases hv
    · subst e
      apply bfsLoop_total h hheap
      · intro n hn
        simp only [List.nil_append] at hn
        obtain ⟨p, _, hc⟩ := mem_children.1 (List.mem_filter.1 hn).1
        exact List.getElem?_mem hc
      · have h1 := pendingEdges_le_edgeCount h (([] : List T).insert m.data)
        have h2 := List.length_filter_le
          (fun c => decide (c.data ∉ ([] : List T).insert m.data))
          (children h m.adjacencyList)
        have h3 := children_length_le h m.adjacencyList
        simp only [List.nil_append]
        omega

/-- Summary of a breadth-first traversal from `nodes[0] = n0` that returns
`vs`: the loop ended, with an empty frontier, in a state that satisfies the
loop invariant and whose `result` is `vs`. -/
theorem breadthFirstTraversal_inv {T : Type} [DecidableEq T] (h : Heap T) (g : Graph T)
    (n0 : Node T) (hn0 : g.nodes.head? = some n0) (vs : List T)
    (hrun : breadthFirstTraversal h g = some vs) :
    ∃ s', BfsInv h n0 s' ∧ s'.d = [] ∧ s'.result = vs := by
  cases hg : g.nodes with
  | nil => simp [hg] at hn0
  | cons m rest =>
    rw [hg] at hn0
    simp only [List.head?_cons, Option.some.injEq] at hn0
    subst hn0
    simp only [breadthFirstTraversal, hg] at hrun
    exact bfsLoop_induct h (BfsInv h m) (bfsInv_step h m) _ _ vs (bfsInv_init h m) hrun

/-! ## Breadth-first traversal: levels -/

theorem IsDist.unique {T : Type} {h : Heap T} {n0 u : Node T} {k k' : Nat}
    (hk : IsDist h n0 u k) (hk' : IsDist h n0 u k') : k = k' :=
  Nat.le_antisymm (hk.2 k' hk'.1) (hk'.2 k hk.1)

/-- While the root is visited, every node with a path shorter than all the
lengths waiting in the frontier is visited. -/
theorem BfsLevels.visited_of_short {T : Type} {h : Heap T} {n0 : Node T}
    {s : BfsState T} {Q R : List (Node T × Nat)} (hL : BfsLevels h n0 s Q R)
    (hdist : DistinctData h n0) (h0 : n0.data ∈ s.visited) :
    ∀ (k : Nat) (y : Node T), ReachIn h n0 k y → (∀ q ∈ Q, k < q.2) →
      y.data ∈ s.visited := by
  obtain ⟨_, l2, l3, _, l5, _, _, l8, _⟩ := hL
  intro k y hy
  induction hy with
  | zero => exact fun _ => h0
  | succ hu hp hw ih =>
    rename_i k u w p
    intro hQ
    have hu' : u.data ∈ s.visited := ih (fun q hq => Nat.lt_of_succ_lt (hQ q hq))
    rw [l3, l2, List.mem_map] at hu'
    obtain ⟨x, hxR, hxu⟩ := hu'
    have hx : x.1 = u := hdist x.1 u (l5 x hxR).1.reach hu.reach hxu
    have hxk : x.2 ≤ k := (l5 x hxR).2 k (hx ▸ hu)
    rcases l8 x hxR p (hx ▸ hp) w hw with e | e
    · exact e
    · have := hQ _ e
      simp only at this
      omega

theorem bfsLevels_init {T : Type} [DecidableEq T] (h : Heap T) (n0 : Node T) :
    BfsLevelInv h n0 { d := [n0], result := [], visited := [] } := by
  refine ⟨[(n0, 0)], [], rfl, rfl, fun v => Iff.rfl, ?_, ?_, ?_, ?_, ?_, Or.inr rfl⟩
  · intro x hx
    rw [List.mem_singleton.1 hx]
    exact ReachIn.zero
  · intro x hx
    cases hx
  · simp
  · intro x hx y hy
    rw [List.mem_singleton.1 hx, List.mem_singleton.1 hy]
    omega
  · intro x hx
    cases hx

theorem bfsLevels_step {T : Type} [DecidableEq T] (h : Heap T) (n0 : Node T)
    (hdist : DistinctData h n0) (s s' : BfsState T) (hinv : BfsLevelInv h n0 s)
    (hne : s.d ≠ []) (hrun : bfsStep h s = some s') : BfsLevelInv h n0 s' := by
  obtain ⟨Q, R, hL⟩ := hinv
  have hshort := hL.visited_of_short hdist
  obtain ⟨l1, l2, l3, l4, l5, l6, l7, l8, l9⟩ := hL
  cases Q with
  | nil => exact absurd l1 hne
  | cons q0 Qrest =>
    obtain ⟨d0, L⟩ := q0
    have hd : s.d = d0 :: Qrest.map Prod.fst := l1
    have hRL : ∀ x ∈ R, x.2 ≤ L := by
      intro x hx
      rw [List.map_append, List.pairwise_append] at l6
      exact l6.2.2 x.2 (List.mem_map_of_mem _ hx) L (by simp)
    have hLQ : ∀ y ∈ Qrest, L ≤ y.2 := by
      intro y hy
      rw [List.map_append, List.pairwise_append] at l6
      have := l6.2.1
      simp only [List.map_cons, List.pairwise_cons] at this
      exact this.1 y.2 (List.mem_map_of_mem _ hy)
    have hQL : ∀ y ∈ Qrest, y.2 ≤ L + 1 :=
      fun y hy => l7 (d0, L) (List.mem_cons_self _ _) y (List.mem_cons_of_mem _ hy)
    have hsub : ((R ++ Qrest).map Prod.snd).Pairwise (fun a b => a ≤ b) := by
      refine List.Pairwise.sublist ?_ l6
      exact List.Sublist.map _ (List.Sublist.append_left (List.sublist_cons_self _ _) _)
    rcases bfsStep_cases h s s' d0 _ hd hrun with ⟨hv, hs'⟩ | ⟨hv, hlive, hs'⟩
    · subst hs'
      refine ⟨Qrest, R, rfl, l2, l3, ?_, l5, hsub, ?_, ?_, ?_⟩
      · exact fun x hx => l4 x (List.mem_cons_of_mem _ hx)
      · exact fun x hx y hy =>
          l7 x (List.mem_cons_of_mem _ hx) y (List.mem_cons_of_mem _ hy)
      · intro x hx p hp c hc
        rcases l8 x hx p hp c hc with e | e
        · exact Or.inl e
        · rcases List.mem_cons.1 e with e' | e'
          · left
            have : c = d0 := congrArg Prod.fst e'
            exact this ▸ hv
          · exact Or.inr e'
      · rcases l9 with e | e
        · exact Or.inl e
        · left
          have : d0 = n0 := by
            have := List.head_eq_of_cons_eq e
            exact congrArg Prod.fst this
          exact this ▸ hv
    · subst hs'
      have hreach0 : ReachIn h n0 L d0 := l4 (d0, L) (List.mem_cons_self _ _)
      have hmin : ∀ j, ReachIn h n0 j d0 → L ≤ j := by
        intro j hj
        by_contra hlt
        rcases l9 with e | e
        · apply hv
          refine hshort e j d0 hj ?_
          intro q hq
          rcases List.mem_cons.1 hq with e' | e'
          · rw [e']
            simp only
            omega
          · have := hLQ q e'
            omega
        · have : L = 0 := by
            have := List.head_eq_of_cons_eq e
            exact congrArg Prod.snd this
          omega
      refine ⟨Qrest ++ ((children h d0.adjacencyList).filter
          (fun c => decide (c.data ∉ s.visited.insert d0.data))).map (fun c => (c, L + 1)),
        R ++ [(d0, L)], ?_, ?_, ?_, ?_, ?_, ?_, ?_, ?_, ?_⟩
      · simp [List.map_append, Function.comp_def]
      · simp [l2]
      · intro v
        simp only [List.mem_insert_iff, List.mem_append, List.mem_singleton, l3 v]
        tauto
      · intro x hx
        rcases List.mem_append.1 hx with e | e
        · exact l4 x (List.mem_cons_of_mem _ e)
        · obtain ⟨c, hc, rfl⟩ := List.mem_map.1 e
          obtain ⟨p, hp, hpc⟩ := mem_children.1 (List.mem_filter.1 hc).1
          exact ReachIn.succ hreach0 hp hpc
      · intro x hx
        rcases List.mem_append.1 hx with e | e
        · exact l5 x e
        · rw [List.mem_singleton.1 e]
          exact ⟨hreach0, hmin⟩
      · have hassoc : (R ++ [(d0, L)]) ++ (Qrest ++ ((children h d0.adjacencyList).filter
            (fun c => decide (c.data ∉ s.visited.insert d0.data))).map (fun c => (c, L + 1)))
            = (R ++ (d0, L) :: Qrest) ++ ((children h d0.adjacencyList).filter
            (fun c => decide (c.data ∉ s.visited.insert d0.data))).map
              (fun c => (c, L + 1)) := by
          simp
        rw [hassoc, List.map_append, List.pairwise_append]
        refine ⟨l6, ?_, ?_⟩
        · rw [List.pairwise_map, List.pairwise_map]
          exact List.pairwise_of_forall (fun _ _ => le_refl _)
        · intro a ha b hb
          obtain ⟨y, hy, rfl⟩ := List.mem_map.1 hb
          obtain ⟨c, _, rfl⟩ := List.mem_map.1 hy
          obtain ⟨x, hx, rfl⟩ := List.mem_map.1 ha
          simp only
          rcases List.mem_append.1 hx with e | e
          · have := hRL x e
            omega
          · rcases List.mem_cons.1 e with e' | e'
            · rw [e']
              simp
            · exact hQL x e'
      · intro x hx y hy
        have hxL : L ≤ x.2 := by
          rcases List.mem_append.1 hx with e | e
          · exact hLQ x e
          · obtain ⟨c, _, rfl⟩ := List.mem_map.1 e
            simp
        have hyL : y.2 ≤ L + 1 := by
          rcases List.mem_append.1 hy with e | e
          · exact hQL y e
          · obtain ⟨c, _, rfl⟩ := List.mem_map.1 e
            simp
        omega
      · intro x hx p hp c hc
        rcases List.mem_append.1 hx with e | e
        · rcases l8 x e p hp c hc with e1 | e1
          · exact Or.inl (List.mem_insert_of_mem e1)
          · rcases List.mem_cons.1 e1 with e' | e'
            · left
              have : c = d0 := congrArg Prod.fst e'
              exact this ▸ List.mem_insert_self _ _
            · exact Or.inr (List.mem_append_left _ e')
        · rw [List.mem_singleton.1 e] at hp ⊢
          simp only at hp ⊢
          by_cases hcv : c.data ∈ s.visited.insert d0.data
          · exact Or.inl hcv
          · right
            apply List.mem_append_right
            refine List.mem_map.2 ⟨c, List.mem_filter.2 ⟨?_, ?_⟩, rfl⟩
            · exact mem_children.2 ⟨p, hp, hc⟩
            · simpa using hcv
      · left
        rcases l9 with e | e
        · exact List.mem_insert_of_mem e
        · have : d0 = n0 := by
            have := List.head_eq_of_cons_eq e
            exact congrArg Prod.fst this
          exact this ▸ List.mem_insert_self _ _

/-- Order of the recorded values at the end of the loop: a value recorded
earlier is carried by a node at most as far from the root. -/
theorem BfsLevelInv.pairwise_dist {T : Type} {h : Heap T} {n0 : Node T} {s : BfsState T}
    (hinv : BfsLevelInv h n0 s) (hdist : DistinctData h n0) :
    s.result.Pairwise (fun u v => ∀ a b ka kb, a.data = u → b.data = v →
      IsDist h n0 a ka → IsDist h n0 b kb → ka ≤ kb) := by
  obtain ⟨Q, R, _, l2, _, _, l5, l6, _, _, _⟩ := hinv
  rw [l2, List.pairwise_map]
  rw [List.map_append, List.pairwise_append] at l6
  have hR := l6.1
  rw [List.pairwise_map] at hR
  refine (List.Pairwise.and_mem.1 hR).imp ?_
  intro x y hxy a b ka kb ha hb hka hkb
  obtain ⟨hx, hy, hle⟩ := hxy
  have hax : x.1 = a := hdist x.1 a (l5 x hx).1.reach hka.1.reach ha.symm
  have hby : y.1 = b := hdist y.1 b (l5 y hy).1.reach hkb.1.reach hb.symm
  have h1 : ka = x.2 := hka.unique (hax ▸ l5 x hx)
  have h2 : kb = y.2 := hkb.unique (hby ▸ l5 y hy)
  omega

theorem breadthFirstTraversal_levels {T : Type} [DecidableEq T] (h : Heap T) (g : Graph T)
    (n0 : Node T) (hn0 : g.nodes.head? = some n0) (hdist : DistinctData h n0)
    (vs : List T) (hrun : breadthFirstTraversal h g = some vs) :
    ∃ s', BfsLevelInv h n0 s' ∧ s'.result = vs := by
  cases hg : g.nodes with
  | nil => simp [hg] at hn0
  | cons m rest =>
    rw [hg] at hn0
    simp only [List.head?_cons, Option.some.injEq] at hn0
    subst hn0
    simp only [breadthFirstTraversal, hg] at hrun
    obtain ⟨s', h1, _, h3⟩ := bfsLoop_induct h (BfsLevelInv h m)
      (bfsLevels_step h m hdist) _ _ vs (bfsLevels_init h m) hrun
    exact ⟨s', h1, h3⟩

/-! ## Search -/

theorem stdFind_le {T : Type} [DecidableEq T] (xs : List T) (v : T) :
    stdFind xs v ≤ xs.length := by
  induction xs with
  | nil => simp [stdFind]
  | cons x xs ih =>
    simp only [stdFind, List.length_cons]
    split <;> omega

theorem stdFind_ne_length_iff {T : Type} [DecidableEq T] (xs : List T) (v : T) :
    stdFind xs v ≠ xs.length ↔ v ∈ xs := by
  induction xs with
  | nil => simp [stdFind]
  | cons x xs ih =>
    simp only [stdFind, List.length_cons, List.mem_cons]
    by_cases hx : x = v
    · simp [hx]
    · simp only [hx, if_false]
      have hvx : ¬ v = x := fun e => hx e.symm
      simp only [hvx, false_or, ← ih]
      omega

theorem find_eq {T : Type} [DecidableEq T] (h : Heap T) (g : Graph T) (v : T)
    (vs : List T) (hrun : depthFirstTraversal h g = some vs) :
    find h g v = some (decide (v ∈ vs)) := by
  simp only [find, hrun, Option.some.injEq]
  by_cases hv : v ∈ vs
  · simp [hv, (stdFind_ne_length_iff vs v).2 hv]
  · have : stdFind vs v = vs.length := by
      by_contra hne
      exact hv ((stdFind_ne_length_iff vs v).1 hne)
    simp [hv, this]

theorem traversals_nil {T : Type} [DecidableEq T] (h : Heap T) (g : Graph T)
    (hg : g.nodes = []) :
    depthFirstTraversal h g = some [] ∧ breadthFirstTraversal h g = some [] := by
  simp [depthFirstTraversal, breadthFirstTraversal, hg]

/-! ## Adjacency lists -/

theorem getAdjacencyListLoop_eq {T : Type} (h : Heap T) :
    ∀ (ps : List Nat) (values : List T), (∀ p ∈ ps, p < h.length) →
      getAdjacencyListLoop h ps values =
        some (values ++ (children h ps).map (fun c => c.data)) ∧
      (children h ps).length = ps.length := by
  intro ps
  induction ps with
  | nil =>
    intro values _
    simp [getAdjacencyListLoop, children]
  | cons p ps ih =>
    intro values hlive
    have hp : p < h.length := hlive p (List.mem_cons_self _ _)
    have hps : ∀ q ∈ ps, q < h.length := fun q hq => hlive q (List.mem_cons_of_mem _ hq)
    obtain ⟨h1, h2⟩ := ih (values ++ [h[p].data]) hps
    have hget : h[p]? = some h[p] := List.getElem?_eq_getElem hp
    unfold getAdjacencyListLoop
    simp only [hget, h1]
    simp only [children, List.filterMap_cons, hget] at h2 ⊢
    simp [h2]

theorem children_data_set {T : Type} (h : Heap T) (a : Nat) (n : Node T)
    (hn : h[a]? = some n) (adj : List Nat) (ps : List Nat) :
    (children (h.set a (n.setAdjacencyList adj)) ps).map (fun c => c.data) =
      (children h ps).map (fun c => c.data) := by
  induction ps with
  | nil => rfl
  | cons p ps ih =>
    simp only [children, List.filterMap_cons] at ih ⊢
    by_cases hpa : a = p
    · subst hpa
      have ha : a < h.length := by
        by_contra hge
        rw [List.getElem?_eq_none (Nat.le_of_not_lt hge)] at hn
        cases hn
      have hset : (h.set a (n.setAdjacencyList adj))[a]? = some (n.setAdjacencyList adj) := by
        rw [List.getElem?_set_self ha]
      rw [hset, hn]
      simp only [List.map_cons, ih]
      rfl
    · rw [List.getElem?_set_ne hpa]
      cases hp : h[p]? with
      | none => simpa [hp] using ih
      | some c => simpa [hp] using ih

theorem children_getElem? {T : Type} (h : Heap T) :
    ∀ (ps : List Nat), (∀ p ∈ ps, p < h.length) → ∀ (i p : Nat), ps[i]? = some p →
      (children h ps)[i]? = h[p]? := by
  intro ps
  induction ps with
  | nil =>
    intro _ i p hi
    simp at hi
  | cons q ps ih =>
    intro hlive i p hi
    have hq : q < h.length := hlive q (List.mem_cons_self _ _)
    have hps : ∀ r ∈ ps, r < h.length := fun r hr => hlive r (List.mem_cons_of_mem _ hr)
    have hget : h[q]? = some h[q] := List.getElem?_eq_getElem hq
    simp only [children, List.filterMap_cons, hget]
    cases i with
    | zero =>
      simp only [List.getElem?_cons_zero, Option.some.injEq] at hi
      subst hi
      simp [hget]
    | succ i =>
      simp only [List.getElem?_cons_succ] at hi ⊢
      exact ih hps i p hi

theorem depthFirstTraversal_nodup {T : Type} [DecidableEq T] (h : Heap T) (g : Graph T)
    (vs : List T) (hrun : depthFirstTraversal h g = some vs) : vs.Nodup := by
  cases hg : g.nodes with
  | nil =>
    rw [(traversals_nil h g hg).1] at hrun
    cases hrun
    exact List.nodup_nil
  | cons n0 rest => exact (depthFirstTraversal_post h g n0 (by simp [hg]) vs hrun).2.1

theorem depthFirstTraversal_sound {T : Type} [DecidableEq T] (h : Heap T) (g : Graph T)
    (vs : List T) (hrun : depthFirstTraversal h g = some vs) :
    ∀ v ∈ vs, ∃ u, Reachable h g u ∧ u.data = v := by
  cases hg : g.nodes with
  | nil =>
    rw [(traversals_nil h g hg).1] at hrun
    cases hrun
    intro v hv
    cases hv
  | cons n0 rest =>
    have hn0 : g.nodes.head? = some n0 := by simp [hg]
    intro v hv
    obtain ⟨u, hu1, hu2, _⟩ := (depthFirstTraversal_post h g n0 hn0 vs hrun).2.2 v hv
    exact ⟨u, ⟨n0, hn0, hu1⟩, hu2⟩

theorem breadthFirstTraversal_sound {T : Type} [DecidableEq T] (h : Heap T) (g : Graph T)
    (vs : List T) (hrun : breadthFirstTraversal h g = some vs) :
    ∀ v ∈ vs, ∃ u, Reachable h g u ∧ u.data = v := by
  cases hg : g.nodes with
  | nil =>
    rw [(traversals_nil h g hg).2] at hrun
    cases hrun
    intro v hv
    cases hv
  | cons n0 rest =>
    have hn0 : g.nodes.head? = some n0 := by simp [hg]
    obtain ⟨s', ⟨_, _, _, i4⟩, _, h3⟩ := breadthFirstTraversal_inv h g n0 hn0 vs hrun
    intro v hv
    obtain ⟨u, hu1, hu2, _⟩ := i4 v (h3 ▸ hv)
    exact ⟨u, ⟨n0, hn0, hu1⟩, hu2⟩

/-! ## The claims -/

/-- C1 (as amended): on a graph with a non-empty node sequence in which
reachable nodes with equal data are equal, the list returned by
`depthFirstTraversal()` contains the data value of every node reachable from
`nodes[0]`; the traversal does return when no pointer dangles. -/
theorem depthFirstTraversal_complete {T : Type} [DecidableEq T] (h : Heap T) (g : Graph T)
    (n0 : Node T) (hn0 : g.nodes.head? = some n0) (hdist : DistinctData h n0) :
    (WellFormed h g → ∃ vs, depthFirstTraversal h g = some vs) ∧
    ∀ vs, depthFirstTraversal h g = some vs → ∀ u, Reachable h g u → u.data ∈ vs := by
  refine ⟨depthFirstTraversal_total h g, ?_⟩
  intro vs hrun
  obtain ⟨⟨new, h1⟩, _, h3⟩ := depthFirstTraversal_post h g n0 hn0 vs hrun
  rintro u ⟨m, hm, hu⟩
  rw [hn0] at hm
  cases hm
  exact closed_reach hdist (h1 ▸ List.mem_cons_self _ _) h3 u hu

/-- Instance of C1 on the graph of `testGraph`: the traversal returns
`[1, 2, 3, 4, 5]`, which holds the data of every reachable node. -/
theorem depthFirstTraversal_complete_witness :
    DistinctData testHeap { data := 1, adjacencyList := [1] } ∧
    depthFirstTraversal testHeap testGraph = some [1, 2, 3, 4, 5] ∧
    ∀ u, Reachable testHeap testGraph u → u.data ∈ [1, 2, 3, 4, 5] :=
  ⟨distinctData_of_forall (by decide), by decide,
   (depthFirstTraversal_complete testHeap testGraph { data := 1, adjacencyList := [1] } rfl
     (distinctData_of_forall (by decide))).2 [1, 2, 3, 4, 5] (by decide)⟩

/-- C1 as stated fails when two nodes carry the same data: in `a -> b -> c`
with data 1, 1, 2 the traversal from `a` returns `[1]`, although `c` with
data 2 is reachable. -/
theorem depthFirstTraversal_misses_reachable :
    dupGraph.nodes ≠ [] ∧ WellFormed dupHeap dupGraph ∧
    depthFirstTraversal dupHeap dupGraph = some [1] ∧
    Reachable dupHeap dupGraph { data := 2, adjacencyList := [] } ∧
    (2 : Nat) ∉ [1] := by
  refine ⟨by decide, by decide, by decide, ?_, by decide⟩
  refine ⟨{ data := 1, adjacencyList := [1] }, rfl, ?_⟩
  have hb : Reach dupHeap { data := 1, adjacencyList := [1] }
      { data := 1, adjacencyList := [2] } :=
    Reach.step (p := 1) Reach.refl (by decide) rfl
  exact Reach.step (p := 2) hb (by decide) rfl

/-- C2: every value of `depthFirstTraversal()` and of `breadthFirstTraversal()`
is the data of a node reachable from `nodes[0]`; hence a value carried by no
reachable node occurs in neither result and `find` of it does not return
true. When no pointer dangles both traversals return and `find` of such a
value returns false. -/
theorem traversals_only_reachable {T : Type} [DecidableEq T] (h : Heap T) (g : Graph T) :
    (∀ vs, depthFirstTraversal h g = some vs → ∀ v ∈ vs, ∃ u, Reachable h g u ∧ u.data = v) ∧
    (∀ vs, breadthFirstTraversal h g = some vs →
      ∀ v ∈ vs, ∃ u, Reachable h g u ∧ u.data = v) ∧
    (∀ v, (¬ ∃ u, Reachable h g u ∧ u.data = v) → find h g v ≠ some true) ∧
    (WellFormed h g →
      ∃ dvs bvs, depthFirstTraversal h g = some dvs ∧ breadthFirstTraversal h g = some bvs ∧
        ∀ v, (¬ ∃ u, Reachable h g u ∧ u.data = v) →
          v ∉ dvs ∧ v ∉ bvs ∧ find h g v = some false) := by
  refine ⟨depthFirstTraversal_sound h g, breadthFirstTraversal_sound h g, ?_, ?_⟩
  · intro v hv hfind
    cases hrun : depthFirstTraversal h g with
    | none => simp [find, hrun] at hfind
    | some vs =>
      rw [find_eq h g v vs hrun] at hfind
      simp only [Option.some.injEq, decide_eq_true_eq] at hfind
      exact hv (depthFirstTraversal_sound h g vs hrun v hfind)
  · intro hwf
    obtain ⟨dvs, hd⟩ := depthFirstTraversal_total h g hwf
    obtain ⟨bvs, hb⟩ := breadthFirstTraversal_total h g hwf
    refine ⟨dvs, bvs, hd, hb, ?_⟩
    intro v hv
    have h1 : v ∉ dvs := fun hmem => hv (depthFirstTraversal_sound h g dvs hd v hmem)
    have h2 : v ∉ bvs := fun hmem => hv (breadthFirstTraversal_sound h g bvs hb v hmem)
    refine ⟨h1, h2, ?_⟩
    rw [find_eq h g v dvs hd]
    simp [h1]

/-- Instance of C2 on a graph that stores an unreachable node (data 3) in the
middle of its sequence: both traversals return `[1, 2]`, whose values are
carried by reachable nodes. -/
theorem traversals_only_reachable_witness :
    depthFirstTraversal islandHeap islandGraph = some [1, 2] ∧
    breadthFirstTraversal islandHeap islandGraph = some [1, 2] ∧
    find islandHeap islandGraph 3 = some false ∧
    (∀ v ∈ [1, 2], ∃ u, Reachable islandHeap islandGraph u ∧ u.data = v) ∧
    (∃ dvs bvs, depthFirstTraversal islandHeap islandGraph = some dvs ∧
      breadthFirstTraversal islandHeap islandGraph = some bvs ∧
      ∀ v, (¬ ∃ u, Reachable islandHeap islandGraph u ∧ u.data = v) →
        v ∉ dvs ∧ v ∉ bvs ∧ find islandHeap islandGraph v = some false) :=
  ⟨by decide, by decide, by decide,
   (traversals_only_reachable islandHeap islandGraph).1 [1, 2] (by decide),
   (traversals_only_reachable islandHeap islandGraph).2.2.2 (by decide)⟩

/-- C3: on a graph in which reachable nodes with equal data are equal,
`breadthFirstTraversal()` lists values in order of increasing distance from
the root: whenever `u` occurs before `v` in the result, the shortest-path
distance of the node carrying `u` is at most that of the node carrying `v`;
the traversal does return when no pointer dangles. -/
theorem breadthFirstTraversal_by_distance {T : Type} [DecidableEq T] (h : Heap T)
    (g : Graph T) (n0 : Node T) (hn0 : g.nodes.head? = some n0)
    (hdist : DistinctData h n0) :
    (WellFormed h g → ∃ vs, breadthFirstTraversal h g = some vs) ∧
    ∀ vs, breadthFirstTraversal h g = some vs →
      vs.Pairwise (fun u v => ∀ a b ka kb, a.data = u → b.data = v →
        IsDist h n0 a ka → IsDist h n0 b kb → ka ≤ kb) := by
  refine ⟨breadthFirstTraversal_total h g, ?_⟩
  intro vs hvs
  obtain ⟨s', hs1, hs2⟩ := breadthFirstTraversal_levels h g n0 hn0 hdist vs hvs
  exact hs2 ▸ hs1.pairwise_dist hdist

/-- Instance of C3 on the graph of `testGraph`, whose breadth-first result is
`[1, 2, 3, 4, 5]`. -/
theorem breadthFirstTraversal_by_distance_witness :
    DistinctData testHeap { data := 1, adjacencyList := [1] } ∧
    breadthFirstTraversal testHeap testGraph = some [1, 2, 3, 4, 5] ∧
    [1, 2, 3, 4, 5].Pairwise (fun u v => ∀ a b ka kb, a.data = u → b.data = v →
      IsDist testHeap { data := 1, adjacencyList := [1] } a ka →
      IsDist testHeap { data := 1, adjacencyList := [1] } b kb → ka ≤ kb) :=
  ⟨distinctData_of_forall (by decide), by decide,
   (breadthFirstTraversal_by_distance testHeap testGraph { data := 1, adjacencyList := [1] }
     rfl (distinctData_of_forall (by decide))).2 [1, 2, 3, 4, 5] (by decide)⟩

/-- C4: `find(v)` returns true if and only if `v` is an element of the list
returned by `depthFirstTraversal()` on the same graph; both return when no
pointer dangles. -/
theorem find_iff_mem_depthFirstTraversal {T : Type} [DecidableEq T] (h : Heap T)
    (g : Graph T) (v : T) :
    (WellFormed h g → ∃ vs b, depthFirstTraversal h g = some vs ∧ find h g v = some b) ∧
    ∀ vs, depthFirstTraversal h g = some vs →
      ∃ b, find h g v = some b ∧ (b = true ↔ v ∈ vs) := by
  refine ⟨?_, ?_⟩
  · intro hwf
    obtain ⟨vs, hvs⟩ := depthFirstTraversal_total h g hwf
    exact ⟨vs, decide (v ∈ vs), hvs, find_eq h g v vs hvs⟩
  · intro vs hvs
    exact ⟨decide (v ∈ vs), find_eq h g v vs hvs, by simp⟩

/-- Instance of C4: `find(2)` is true and 2 is in the depth-first result of the
graph of `testGraph`. -/
theorem find_iff_mem_depthFirstTraversal_witness :
    depthFirstTraversal testHeap testGraph = some [1, 2, 3, 4, 5] ∧
    ∃ b, find testHeap testGraph 2 = some b ∧ (b = true ↔ 2 ∈ [1, 2, 3, 4, 5]) :=
  ⟨by decide,
   (find_iff_mem_depthFirstTraversal testHeap testGraph 2).2 [1, 2, 3, 4, 5] (by decide)⟩

/-- C5: on every graph (cycles, self-loops, repeated adjacency entries and
equal data included) the list returned by `depthFirstTraversal()` contains no
value twice; the traversal does return when no pointer dangles. -/
theorem depthFirstTraversal_no_duplicates {T : Type} [DecidableEq T] (h : Heap T)
    (g : Graph T) :
    (WellFormed h g → ∃ vs, depthFirstTraversal h g = some vs) ∧
    ∀ vs, depthFirstTraversal h g = some vs → vs.Nodup :=
  ⟨depthFirstTraversal_total h g, depthFirstTraversal_nodup h g⟩

/-- Instance of C5 on a graph with a self-loop, a cycle, a repeated adjacency
entry and two nodes of equal data. -/
theorem depthFirstTraversal_no_duplicates_witness :
    depthFirstTraversal tangleHeap tangleGraph = some [1, 2, 3] ∧
    ([1, 2, 3] : List Nat).Nodup :=
  ⟨by decide,
   (depthFirstTraversal_no_duplicates tangleHeap tangleGraph).2 [1, 2, 3] (by decide)⟩

/-- C6: on every graph the list returned by `breadthFirstTraversal()` contains
no value twice, although a node may be pushed onto the frontier several
times; the traversal does return when no pointer dangles. -/
theorem breadthFirstTraversal_no_duplicates {T : Type} [DecidableEq T] (h : Heap T)
    (g : Graph T) :
    (WellFormed h g → ∃ vs, breadthFirstTraversal h g = some vs) ∧
    ∀ vs, breadthFirstTraversal h g = some vs → vs.Nodup := by
  refine ⟨breadthFirstTraversal_total h g, ?_⟩
  intro vs hrun
  cases hg : g.nodes with
  | nil =>
    rw [(traversals_nil h g hg).2] at hrun
    cases hrun
    exact List.nodup_nil
  | cons n0 rest =>
    obtain ⟨s', ⟨_, i2, _, _⟩, _, h3⟩ :=
      breadthFirstTraversal_inv h g n0 (by simp [hg]) vs hrun
    exact h3 ▸ i2

/-- Instance of C6 on a graph in which nodes are pushed onto the frontier
several times. -/
theorem breadthFirstTraversal_no_duplicates_witness :
    breadthFirstTraversal tangleHeap tangleGraph = some [1, 2, 3] ∧
    ([1, 2, 3] : List Nat).Nodup :=
  ⟨by decide,
   (breadthFirstTraversal_no_duplicates tangleHeap tangleGraph).2 [1, 2, 3] (by decide)⟩

/-- C7: on the five-node graph of `testGraph` both traversals return
`[1, 2, 3, 4, 5]`. -/
theorem testGraph_traversals :
    depthFirstTraversal testHeap testGraph = some [1, 2, 3, 4, 5] ∧
    breadthFirstTraversal testHeap testGraph = some [1, 2, 3, 4, 5] := by
  constructor <;> decide

/-- C8: on the graph constructed from an empty node sequence both traversals
return the empty list and `find(v)` returns false, whatever the heap holds;
no pointer is followed. -/
theorem empty_graph_traversals {T : Type} [DecidableEq T] (h : Heap T) (v : T) :
    depthFirstTraversal h (Graph.new []) = some [] ∧
    breadthFirstTraversal h (Graph.new []) = some [] ∧
    find h (Graph.new []) v = some false := by
  refine ⟨rfl, rfl, ?_⟩
  rw [find_eq h (Graph.new []) v [] rfl]
  simp

/-- C9: after `setAdjacencyList(adj)` with live references, on a heap object or
on a copy, `getAdjacencyList()` returns the data values of the nodes that
`adj` references, as many as `adj` has entries and in the same order; a
freshly constructed node returns the empty list. -/
theorem setAdjacencyList_getAdjacencyList {T : Type} (h : Heap T) (a : Nat) (n m : Node T)
    (adj : List Nat) (v : T) (ha : h[a]? = some n) (hadj : ∀ p ∈ adj, p < h.length) :
    (∃ h', h.setAdjacencyList a adj = some h' ∧
      h'[a]? = some (n.setAdjacencyList adj) ∧
      (n.setAdjacencyList adj).getAdjacencyList h' =
        some ((children h adj).map (fun c => c.data))) ∧
    (m.setAdjacencyList adj).getAdjacencyList h =
      some ((children h adj).map (fun c => c.data)) ∧
    ((children h adj).map (fun c => c.data)).length = adj.length ∧
    (∀ (i p : Nat), adj[i]? = some p →
      ((children h adj).map (fun c => c.data))[i]? =
        (h[p]?).map (fun (c : Node T) => c.data)) ∧
    (Node.new v).getAdjacencyList h = some [] := by
  have halt : a < h.length := by
    by_contra hge
    rw [List.getElem?_eq_none (Nat.le_of_not_lt hge)] at ha
    cases ha
  refine ⟨⟨h.set a (n.setAdjacencyList adj), ?_, ?_, ?_⟩, ?_, ?_, ?_, rfl⟩
  · simp [Heap.setAdjacencyList, ha]
  · rw [List.getElem?_set_self halt]
  · have hadj' : ∀ p ∈ adj, p < (h.set a (n.setAdjacencyList adj)).length := by
      simpa using hadj
    have := (getAdjacencyListLoop_eq (h.set a (n.setAdjacencyList adj)) adj [] hadj').1
    simp only [List.nil_append] at this
    rw [children_data_set h a n ha adj adj] at this
    exact this
  · have := (getAdjacencyListLoop_eq h adj [] hadj).1
    simpa using this
  · rw [List.length_map]
    exact (getAdjacencyListLoop_eq h adj [] hadj).2
  · intro i p hi
    rw [List.getElem?_map, children_getElem? h adj hadj i p hi]

/-- Instance of C9: `n2.setAdjacencyList({&n1, &n3, &n4, &n2, &n2})` on the
objects of `testGraph`, self-reference and duplicate included. -/
theorem setAdjacencyList_getAdjacencyList_witness :
    ∃ h', testHeap.setAdjacencyList 1 [0, 2, 3, 1, 1] = some h' ∧
      h'[1]? = some { data := 2, adjacencyList := [0, 2, 3, 1, 1] } ∧
      Node.getAdjacencyList h' { data := 2, adjacencyList := [0, 2, 3, 1, 1] } =
        some [1, 3, 4, 2, 2] :=
  (setAdjacencyList_getAdjacencyList testHeap 1 { data := 2, adjacencyList := [0, 2, 3] }
    { data := 2, adjacencyList := [0, 2, 3] } [0, 2, 3, 1, 1] 0 rfl (by decide)).1

/-- C10: `Graph(ns).getNodes()` is `ns`: same length and at every index the
same data, the same adjacency references and the same `getAdjacencyList()`. -/
theorem getNodes_new {T : Type} (ns : List (Node T)) :
    (Graph.new ns).getNodes = ns ∧
    (Graph.new ns).getNodes.length = ns.length ∧
    ∀ (h : Heap T) (i : Nat),
      ((Graph.new ns).getNodes[i]?).map
          (fun n => (n.data, n.adjacencyList, n.getAdjacencyList h)) =
        (ns[i]?).map (fun n => (n.data, n.adjacencyList, n.getAdjacencyList h)) :=
  ⟨rfl, rfl, fun _ _ => rfl⟩

/-! ## Breadth-first traversal: the first levels -/

theorem bfsLoop_extends {T : Type} [DecidableEq T] (h : Heap T) :
    ∀ (fuel : Nat) (s : BfsState T) (r : List T), bfsLoop h fuel s = some r →
      ∃ rest, r = s.result ++ rest := by
  intro fuel
  induction fuel with
  | zero =>
    intro s r hrun
    simp only [bfsLoop] at hrun
    by_cases hd : s.d = []
    · simp only [hd, List.isEmpty_nil, if_true, Option.some.injEq] at hrun
      exact ⟨[], by simp [hrun]⟩
    · simp [List.isEmpty_iff, hd] at hrun
  | succ fuel ih =>
    intro s r hrun
    simp only [bfsLoop] at hrun
    by_cases hd : s.d = []
    · simp only [hd, List.isEmpty_nil, if_true, Option.some.injEq] at hrun
      exact ⟨[], by simp [hrun]⟩
    · simp only [List.isEmpty_iff, hd, if_false] at hrun
      cases hs : bfsStep h s with
      | none => simp [hs] at hrun
      | some s1 =>
        simp only [hs] at hrun
        obtain ⟨rest, hrest⟩ := ih s1 r hrun
        cases hdd : s.d with
        | nil => exact absurd hdd hd
        | cons d0 tl =>
          rcases bfsStep_cases h s s1 d0 tl hdd hs with ⟨_, e⟩ | ⟨_, _, e⟩
          · subst e
            exact ⟨rest, hrest⟩
          · subst e
            exact ⟨d0.data :: rest, by simp [hrest]⟩

/-- After the first iteration of the loop the frontier holds the neighbours of
`nodes[0]` whose data differs from its own, and `result` and `visited` hold
the data of `nodes[0]`. -/
theorem breadthFirstTraversal_first_step {T : Type} [DecidableEq T] (h : Heap T)
    (g : Graph T) (n0 : Node T) (hn0 : g.nodes.head? = some n0) (vs : List T)
    (hrun : breadthFirstTraversal h g = some vs) :
    Live h n0 ∧ ∃ fuel, bfsLoop h fuel
      { d := (children h n0.adjacencyList).filter (fun c => decide (c.data ∉ [n0.data])),
        result := [n0.data], visited := [n0.data] } = some vs := by
  cases hg : g.nodes with
  | nil => simp [hg] at hn0
  | cons m rest =>
    rw [hg] at hn0
    simp only [List.head?_cons, Option.some.injEq] at hn0
    subst hn0
    simp only [breadthFirstTraversal, hg] at hrun
    have hfuel : 1 + m.adjacencyList.length + h.edgeCount =
        (m.adjacencyList.length + h.edgeCount) + 1 := by omega
    rw [hfuel] at hrun
    simp only [bfsLoop, List.isEmpty_cons, Bool.false_eq_true, if_false] at hrun
    cases hs : bfsStep h { d := [m], result := [], visited := [] } with
    | none => simp [hs] at hrun
    | some s1 =>
      simp only [hs] at hrun
      rcases bfsStep_cases h _ s1 m [] rfl hs with ⟨hv, _⟩ | ⟨_, hlive, e⟩
      · cases hv
      · subst e
        exact ⟨hlive, _, hrun⟩

theorem keepFirstUnseen_filter {T : Type} [DecidableEq T] (f : Node T → Bool) :
    ∀ (cs : List (Node T)) (seen : List T), (∀ c ∈ cs, f c = false → c.data ∈ seen) →
      keepFirstUnseen seen ((cs.filter f).map (fun c => c.data)) =
        keepFirstUnseen seen (cs.map (fun c => c.data)) := by
  intro cs
  induction cs with
  | nil => intro _ _; rfl
  | cons c cs ih =>
    intro seen hx
    have hcs : ∀ c' ∈ cs, f c' = false → c'.data ∈ seen :=
      fun c' hc' => hx c' (List.mem_cons_of_mem _ hc')
    cases hf : f c with
    | false =>
      have hmem : c.data ∈ seen := hx c (List.mem_cons_self _ _) hf
      rw [List.filter_cons_of_neg (by simp [hf]), ih seen hcs]
      simp [keepFirstUnseen, hmem]
    | true =>
      rw [List.filter_cons_of_pos hf]
      simp only [List.map_cons, keepFirstUnseen]
      by_cases hs : c.data ∈ seen
      · simp only [hs, if_true]
        exact ih seen hcs
      · simp only [hs, if_false]
        rw [ih (c.data :: seen) (fun c' hc' hf' => List.mem_cons_of_mem _ (hcs c' hc' hf'))]

theorem keepFirstUnseen_subset {T : Type} [DecidableEq T] :
    ∀ (xs seen : List T) (x : T), x ∈ keepFirstUnseen seen xs → x ∈ xs := by
  intro xs
  induction xs with
  | nil => intro _ _ hx; simp [keepFirstUnseen] at hx
  | cons y ys ih =>
    intro seen x hx
    simp only [keepFirstUnseen] at hx
    by_cases hs : y ∈ seen
    · simp only [hs, if_true] at hx
      exact List.mem_cons_of_mem _ (ih seen x hx)
    · simp only [hs, if_false] at hx
      rcases List.mem_cons.1 hx with e | e
      · exact e ▸ List.mem_cons_self _ _
      · exact List.mem_cons_of_mem _ (ih _ x e)

theorem mem_keepFirstUnseen {T : Type} [DecidableEq T] :
    ∀ (xs seen : List T) (x : T), x ∈ xs → x ∈ seen ∨ x ∈ keepFirstUnseen seen xs := by
  intro xs
  induction xs with
  | nil => intro _ _ hx; cases hx
  | cons y ys ih =>
    intro seen x hx
    simp only [keepFirstUnseen]
    rcases List.mem_cons.1 hx with e | e
    · subst e
      by_cases hs : x ∈ seen
      · exact Or.inl hs
      · simp [hs]
    · by_cases hs : y ∈ seen
      · simp only [hs, if_true]
        exact ih seen x e
      · simp only [hs, if_false]
        rcases ih (y :: seen) x e with e' | e'
        · rcases List.mem_cons.1 e' with e'' | e''
          · exact Or.inr (e'' ▸ List.mem_cons_self _ _)
          · exact Or.inl e''
        · exact Or.inr (List.mem_cons_of_mem _ e')

/-- The loop works through the nodes at the front of the frontier before any
node pushed meanwhile: their data is recorded in order, visited values and
repetitions left out. -/
theorem bfsLoop_front {T : Type} [DecidableEq T] (h : Heap T) :
    ∀ (front back : List (Node T)) (result visited : List T) (fuel : Nat) (r : List T),
      bfsLoop h fuel { d := front ++ back, result := result, visited := visited } = some r →
      ∃ fuel' back' visited',
        bfsLoop h fuel'
          { d := back',
            result := result ++ keepFirstUnseen visited (front.map (fun c => c.data)),
            visited := visited' } = some r := by
  intro front
  induction front with
  | nil =>
    intro back result visited fuel r hrun
    exact ⟨fuel, back, visited, by simpa [keepFirstUnseen] using hrun⟩
  | cons c cs ih =>
    intro back result visited fuel r hrun
    cases fuel with
    | zero => simp [bfsLoop] at hrun
    | succ fuel =>
      simp only [bfsLoop, List.cons_append, List.isEmpty_cons, Bool.false_eq_true,
        if_false] at hrun
      cases hs : bfsStep h { d := c :: (cs ++ back), result := result, visited := visited } with
      | none => simp [hs] at hrun
      | some s1 =>
        simp only [hs] at hrun
        rcases bfsStep_cases h _ s1 c (cs ++ back) rfl hs with ⟨hv, e⟩ | ⟨hv, _, e⟩
        · subst e
          simp only at hv
          obtain ⟨f', b', v', h'⟩ := ih back result visited fuel r hrun
          refine ⟨f', b', v', ?_⟩
          simpa [keepFirstUnseen, hv] using h'
        · subst e
          simp only at hv
          simp only [List.append_assoc, List.insert_of_not_mem hv] at hrun
          obtain ⟨f', b', v', h'⟩ := ih _ _ _ fuel r hrun
          refine ⟨f', b', v', ?_⟩
          simpa [keepFirstUnseen, hv] using h'

theorem breadthFirstTraversal_nodup {T : Type} [DecidableEq T] (h : Heap T) (g : Graph T)
    (vs : List T) (hrun : breadthFirstTraversal h g = some vs) : vs.Nodup := by
  cases hg : g.nodes with
  | nil =>
    rw [(traversals_nil h g hg).2] at hrun
    cases hrun
    exact List.nodup_nil
  | cons n0 rest =>
    obtain ⟨s', ⟨_, i2, _, _⟩, _, h3⟩ :=
      breadthFirstTraversal_inv h g n0 (by simp [hg]) vs hrun
    exact h3 ▸ i2

/-- The breadth-first result starts with the data of `nodes[0]`, followed by the
data of its neighbours in adjacency order (first occurrences, its own value
left out), followed by the rest. -/
theorem breadthFirstTraversal_levels01 {T : Type} [DecidableEq T] (h : Heap T)
    (g : Graph T) (n0 : Node T) (hn0 : g.nodes.head? = some n0) (vs : List T)
    (hrun : breadthFirstTraversal h g = some vs) :
    ∃ rest, vs = n0.data ::
      (keepFirstUnseen [n0.data] ((children h n0.adjacencyList).map (fun c => c.data))
        ++ rest) := by
  obtain ⟨_, fuel, h1⟩ := breadthFirstTraversal_first_step h g n0 hn0 vs hrun
  obtain ⟨f', b', v', h3⟩ := bfsLoop_front h _ [] _ _ fuel vs
    (by rw [List.append_nil]; exact h1)
  obtain ⟨rest, hrest⟩ := bfsLoop_extends h f' _ vs h3
  refine ⟨rest, ?_⟩
  rw [keepFirstUnseen_filter] at hrest
  · rw [hrest]
    rfl
  · intro c _ hc
    simpa using hc

/-! ## Depth-first traversal: the first child -/

/-- The children loop recurses first into the first adjacent node whose data is
not visited, and changes nothing when there is none. -/
theorem dfsChildren_first {T : Type} [DecidableEq T] (h : Heap T)
    (recurse : Node T → DfsState T → Option (DfsState T))
    (hrec : ∀ c s s', c.data ∉ s.visited → recurse c s = some s' →
      ∃ rest, DfsPost h (Reach h c) s s' (c.data :: rest)) :
    ∀ (ps : List Nat) (s s' : DfsState T), dfsChildren h recurse ps s = some s' →
      (∀ p ∈ ps, p < h.length) ∧
      (∀ c, (children h ps).find? (fun c => decide (c.data ∉ s.visited)) = some c →
        ∃ rest, s'.values = s.values ++ c.data :: rest) ∧
      ((children h ps).find? (fun c => decide (c.data ∉ s.visited)) = none → s' = s) := by
  intro ps
  induction ps with
  | nil =>
    intro s s' hrun
    simp only [dfsChildren, Option.some.injEq] at hrun
    refine ⟨?_, ?_, ?_⟩
    · intro p hp
      cases hp
    · intro c hc
      simp [children] at hc
    · exact fun _ => hrun.symm
  | cons p ps ih =>
    intro s s' hrun
    have hrun0 := hrun
    unfold dfsChildren at hrun
    cases hp : h[p]? with
    | none => simp [hp] at hrun
    | some child =>
      have hlt : p < h.length := by
        by_contra hge
        rw [List.getElem?_eq_none (Nat.le_of_not_lt hge)] at hp
        cases hp
      have hch : children h (p :: ps) = child :: children h ps := by
        simp [children, List.filterMap_cons, hp]
      simp only [hp] at hrun
      by_cases hv : child.data ∈ s.visited
      · simp only [hv, if_true] at hrun
        obtain ⟨i1, i2, i3⟩ := ih s s' hrun
        refine ⟨?_, ?_, ?_⟩
        · intro q hq
          rcases List.mem_cons.1 hq with e' | e'
          · exact e' ▸ hlt
          · exact i1 q e'
        · intro c hc
          rw [hch, List.find?_cons_of_neg _ (by simpa using hv)] at hc
          exact i2 c hc
        · intro hnone
          rw [hch, List.find?_cons_of_neg _ (by simpa using hv)] at hnone
          exact i3 hnone
      · simp only [hv, if_false] at hrun
        cases hr : recurse child s with
        | none => simp [hr] at hrun
        | some s1 =>
          simp only [hr] at hrun
          obtain ⟨rest, a1, _⟩ := hrec child s s1 hv hr
          obtain ⟨⟨new, b1, _⟩, _⟩ := dfsChildren_post h recurse hrec ps s1 s' hrun
          obtain ⟨i1, _, _⟩ := ih s1 s' hrun
          refine ⟨?_, ?_, ?_⟩
          · intro q hq
            rcases List.mem_cons.1 hq with e' | e'
            · exact e' ▸ hlt
            · exact i1 q e'
          · intro c hc
            rw [hch, List.find?_cons_of_pos _ (by simpa using hv)] at hc
            simp only [Option.some.injEq] at hc
            subst hc
            exact ⟨rest ++ new, by rw [b1, a1]; simp⟩
          · intro hnone
            rw [hch, List.find?_cons_of_pos _ (by simpa using hv)] at hnone
            cases hnone

/-- The depth-first result starts with the data of `nodes[0]`; its second
element is the data of the first neighbour whose data differs from that of
`nodes[0]`, and without such a neighbour there is no second element. -/
theorem depthFirstTraversal_first_child {T : Type} [DecidableEq T] (h : Heap T)
    (g : Graph T) (n0 : Node T) (hn0 : g.nodes.head? = some n0) (vs : List T)
    (hrun : depthFirstTraversal h g = some vs) :
    Live h n0 ∧
    (∀ c, (children h n0.adjacencyList).find? (fun c => decide (c.data ≠ n0.data)) = some c →
      ∃ rest, vs = n0.data :: c.data :: rest) ∧
    ((children h n0.adjacencyList).find? (fun c => decide (c.data ≠ n0.data)) = none →
      vs = [n0.data]) := by
  cases hg : g.nodes with
  | nil => simp [hg] at hn0
  | cons m tl =>
    rw [hg] at hn0
    simp only [List.head?_cons, Option.some.injEq] at hn0
    subst hn0
    simp only [depthFirstTraversal, hg] at hrun
    cases hs : depthFirstImpl h (h.length + 1) m { values := [], visited := [] } with
    | none => simp [hs] at hrun
    | some s' =>
      simp only [hs, Option.some.injEq] at hrun
      simp only [depthFirstImpl] at hs
      obtain ⟨i1, i2, i3⟩ := dfsChildren_first h (depthFirstImpl h h.length)
        (depthFirstImpl_post h h.length) m.adjacencyList _ s' hs
      have hpred : (fun (c : Node T) => decide (c.data ∉ ([] : List T).insert m.data)) =
          (fun c => decide (c.data ≠ m.data)) := by
        funext c
        simp
      simp only [hpred] at i2 i3
      refine ⟨i1, ?_, ?_⟩
      · intro c hc
        obtain ⟨rest, hrest⟩ := i2 c hc
        exact ⟨rest, by rw [← hrun, hrest]; rfl⟩
      · intro hnone
        rw [← hrun, i3 hnone]
        rfl

/-! ## The claims, continued -/

/-- C11: on a graph with a non-empty node sequence every list returned by
`depthFirstTraversal()` or `breadthFirstTraversal()` is non-empty and starts
with the data value of `nodes[0]`; both return when no pointer dangles. -/
theorem traversals_start_at_root {T : Type} [DecidableEq T] (h : Heap T) (g : Graph T)
    (n0 : Node T) (hn0 : g.nodes.head? = some n0) :
    (WellFormed h g →
      ∃ dvs bvs, depthFirstTraversal h g = some dvs ∧ breadthFirstTraversal h g = some bvs) ∧
    (∀ vs, depthFirstTraversal h g = some vs → vs ≠ [] ∧ vs.head? = some n0.data) ∧
    (∀ vs, breadthFirstTraversal h g = some vs → vs ≠ [] ∧ vs.head? = some n0.data) := by
  refine ⟨?_, ?_, ?_⟩
  · intro hwf
    obtain ⟨dvs, hd⟩ := depthFirstTraversal_total h g hwf
    obtain ⟨bvs, hb⟩ := breadthFirstTraversal_total h g hwf
    exact ⟨dvs, bvs, hd, hb⟩
  · intro vs hrun
    obtain ⟨⟨new, h1⟩, _⟩ := depthFirstTraversal_post h g n0 hn0 vs hrun
    subst h1
    exact ⟨List.cons_ne_nil _ _, rfl⟩
  · intro vs hrun
    obtain ⟨rest, h1⟩ := breadthFirstTraversal_levels01 h g n0 hn0 vs hrun
    subst h1
    exact ⟨List.cons_ne_nil _ _, rfl⟩

/-- Instance of C11 on a graph with a self-loop at `nodes[0]`: both results are
`[1, 2, 3]` and start with the data 1 of `nodes[0]`. -/
theorem traversals_start_at_root_witness :
    depthFirstTraversal tangleHeap tangleGraph = some [1, 2, 3] ∧
    breadthFirstTraversal tangleHeap tangleGraph = some [1, 2, 3] ∧
    ([1, 2, 3] ≠ [] ∧ [1, 2, 3].head? = some 1) :=
  ⟨by decide, by decide,
   (traversals_start_at_root tangleHeap tangleGraph
     { data := 1, adjacencyList := [0, 1, 1, 2] } rfl).2.1 [1, 2, 3] (by decide)⟩

/-- C12: on a graph with a non-empty node sequence every list returned by
`breadthFirstTraversal()` consists of the data of `nodes[0]`, then the data
of the nodes adjacent to `nodes[0]` in adjacency-list order, entries equal to
the data of `nodes[0]` dropped and only the first occurrence of a repeated
value kept, then the remaining values, none of which is carried by
`nodes[0]` or by a node adjacent to it; the traversal returns when no
pointer dangles. -/
theorem breadthFirstTraversal_tie_break {T : Type} [DecidableEq T] (h : Heap T)
    (g : Graph T) (n0 : Node T) (hn0 : g.nodes.head? = some n0) :
    (WellFormed h g → ∃ vs, breadthFirstTraversal h g = some vs) ∧
    ∀ vs, breadthFirstTraversal h g = some vs →
      Live h n0 ∧
      ∃ rest, vs = n0.data ::
          (keepFirstUnseen [n0.data] ((children h n0.adjacencyList).map (fun c => c.data))
            ++ rest) ∧
        (∀ v ∈ rest, v ≠ n0.data ∧ ∀ c ∈ children h n0.adjacencyList, c.data ≠ v) ∧
        (∀ v ∈ vs, v ≠ n0.data → (∀ c ∈ children h n0.adjacencyList, c.data ≠ v) →
          v ∈ rest) := by
  refine ⟨breadthFirstTraversal_total h g, ?_⟩
  intro vs hrun
  have hnd := breadthFirstTraversal_nodup h g vs hrun
  obtain ⟨hlive, _⟩ := breadthFirstTraversal_first_step h g n0 hn0 vs hrun
  obtain ⟨rest, hrest⟩ := breadthFirstTraversal_levels01 h g n0 hn0 vs hrun
  refine ⟨hlive, rest, hrest, ?_, ?_⟩
  · rw [hrest, List.nodup_cons, List.nodup_append] at hnd
    obtain ⟨hn, _, _, hdisj⟩ := hnd
    intro v hv
    refine ⟨?_, ?_⟩
    · intro e
      exact hn (List.mem_append_right _ (e ▸ hv))
    · intro c hc e
      rcases mem_keepFirstUnseen ((children h n0.adjacencyList).map (fun c => c.data))
          [n0.data] c.data (List.mem_map_of_mem _ hc) with e' | e'
      · rw [List.mem_singleton] at e'
        exact hn (List.mem_append_right _ (e' ▸ e ▸ hv))
      · exact hdisj e' (e ▸ hv)
  · intro v hv hne hadj
    rw [hrest] at hv
    rcases List.mem_cons.1 hv with e | e
    · exact absurd e hne
    · rcases List.mem_append.1 e with e' | e'
      · obtain ⟨c, hc, hcv⟩ := List.mem_map.1 (keepFirstUnseen_subset _ _ v e')
        exact absurd hcv (hadj c hc)
      · exact e'

/-- Instance of C12 on a graph whose first node lists itself, one neighbour
twice and a second node of its own value: the neighbours' data `[1, 2, 2, 1]`
contribute `[2]` and the result is `[1, 2, 3]`. -/
theorem breadthFirstTraversal_tie_break_witness :
    breadthFirstTraversal tangleHeap tangleGraph = some [1, 2, 3] ∧
    (children tangleHeap [0, 1, 1, 2]).map (fun c => c.data) = [1, 2, 2, 1] ∧
    keepFirstUnseen [1] [1, 2, 2, 1] = [2] ∧
    ∃ rest, [1, 2, 3] = 1 ::
        (keepFirstUnseen [1] ((children tangleHeap [0, 1, 1, 2]).map (fun c => c.data))
          ++ rest) ∧
      (∀ v ∈ rest, v ≠ 1 ∧ ∀ c ∈ children tangleHeap [0, 1, 1, 2], c.data ≠ v) ∧
      (∀ v ∈ [1, 2, 3], v ≠ 1 → (∀ c ∈ children tangleHeap [0, 1, 1, 2], c.data ≠ v) →
        v ∈ rest) :=
  ⟨by decide, by decide, by decide,
   ((breadthFirstTraversal_tie_break tangleHeap tangleGraph
     { data := 1, adjacencyList := [0, 1, 1, 2] } rfl).2 [1, 2, 3] (by decide)).2⟩

/-- C13: on a graph with a non-empty node sequence, if some node adjacent to
`nodes[0]` has data different from that of `nodes[0]`, every list returned by
`depthFirstTraversal()` has the data of `nodes[0]` first and the data of the
first such node, in adjacency-list order, second; otherwise the list is
`[nodes[0].data]`. The traversal returns when no pointer dangles. -/
theorem depthFirstTraversal_tie_break {T : Type} [DecidableEq T] (h : Heap T)
    (g : Graph T) (n0 : Node T) (hn0 : g.nodes.head? = some n0) :
    (WellFormed h g → ∃ vs, depthFirstTraversal h g = some vs) ∧
    ∀ vs, depthFirstTraversal h g = some vs →
      Live h n0 ∧
      (∀ c, (children h n0.adjacencyList).find? (fun c => decide (c.data ≠ n0.data)) = some c →
        vs[0]? = some n0.data ∧ vs[1]? = some c.data) ∧
      ((children h n0.adjacencyList).find? (fun c => decide (c.data ≠ n0.data)) = none →
        vs = [n0.data]) := by
  refine ⟨depthFirstTraversal_total h g, ?_⟩
  intro vs hrun
  obtain ⟨h0, h1, h2⟩ := depthFirstTraversal_first_child h g n0 hn0 vs hrun
  refine ⟨h0, ?_, h2⟩
  intro c hc
  obtain ⟨rest, hrest⟩ := h1 c hc
  subst hrest
  exact ⟨rfl, by simp⟩

/-- Instance of C13 on a graph whose first node lists itself before its first
neighbour of different data: the second element is that neighbour's data 2. -/
theorem depthFirstTraversal_tie_break_witness :
    depthFirstTraversal tangleHeap tangleGraph = some [1, 2, 3] ∧
    (children tangleHeap [0, 1, 1, 2]).find? (fun c => decide (c.data ≠ 1)) =
      some { data := 2, adjacencyList := [0, 1, 3] } ∧
    ([1, 2, 3][0]? = some 1 ∧ [1, 2, 3][1]? = some 2) :=
  ⟨by decide, by decide,
   ((depthFirstTraversal_tie_break tangleHeap tangleGraph
     { data := 1, adjacencyList := [0, 1, 1, 2] } rfl).2 [1, 2, 3] (by decide)).2.1
     { data := 2, adjacencyList := [0, 1, 3] } (by decide)⟩

/-! ## Both traversals list exactly the reachable data -/

theorem breadthFirstTraversal_closed {T : Type} [DecidableEq T] (h : Heap T) (g : Graph T)
    (n0 : Node T) (hn0 : g.nodes.head? = some n0) (vs : List T)
    (hrun : breadthFirstTraversal h g = some vs) :
    n0.data ∈ vs ∧ ∀ x ∈ vs, ∃ u, Reach h n0 u ∧ u.data = x ∧ Closed h vs u := by
  obtain ⟨rest, hrest⟩ := breadthFirstTraversal_levels01 h g n0 hn0 vs hrun
  obtain ⟨s', ⟨i1, _, _, i4⟩, hd, hres⟩ := breadthFirstTraversal_inv h g n0 hn0 vs hrun
  refine ⟨hrest ▸ List.mem_cons_self _ _, ?_⟩
  intro x hx
  obtain ⟨u, hu1, hu2, hu3⟩ := i4 x (hres ▸ hx)
  refine ⟨u, hu1, hu2, ?_⟩
  intro p hp
  obtain ⟨c, hc1, hc2⟩ := hu3 p hp
  refine ⟨c, hc1, ?_⟩
  rcases hc2 with e | e
  · exact hres ▸ (i1 _).1 e
  · rw [hd] at e
    cases e

theorem depthFirstTraversal_mem_iff {T : Type} [DecidableEq T] (h : Heap T) (g : Graph T)
    (n0 : Node T) (hn0 : g.nodes.head? = some n0) (hdist : DistinctData h n0) (vs : List T)
    (hrun : depthFirstTraversal h g = some vs) (v : T) :
    v ∈ vs ↔ ∃ u, Reach h n0 u ∧ u.data = v := by
  obtain ⟨⟨new, h1⟩, _, h3⟩ := depthFirstTraversal_post h g n0 hn0 vs hrun
  constructor
  · intro hv
    obtain ⟨u, hu1, hu2, _⟩ := h3 v hv
    exact ⟨u, hu1, hu2⟩
  · rintro ⟨u, hu1, hu2⟩
    exact hu2 ▸ closed_reach hdist (h1 ▸ List.mem_cons_self _ _) h3 u hu1

theorem breadthFirstTraversal_mem_iff {T : Type} [DecidableEq T] (h : Heap T) (g : Graph T)
    (n0 : Node T) (hn0 : g.nodes.head? = some n0) (hdist : DistinctData h n0) (vs : List T)
    (hrun : breadthFirstTraversal h g = some vs) (v : T) :
    v ∈ vs ↔ ∃ u, Reach h n0 u ∧ u.data = v := by
  obtain ⟨h1, h3⟩ := breadthFirstTraversal_closed h g n0 hn0 vs hrun
  constructor
  · intro hv
    obtain ⟨u, hu1, hu2, _⟩ := h3 v hv
    exact ⟨u, hu1, hu2⟩
  · rintro ⟨u, hu1, hu2⟩
    exact hu2 ▸ closed_reach hdist h1 h3 u hu1

theorem reachable_iff {T : Type} (h : Heap T) (g : Graph T) (n0 : Node T)
    (hn0 : g.nodes.head? = some n0) (u : Node T) : Reachable h g u ↔ Reach h n0 u := by
  constructor
  · rintro ⟨m, hm, hu⟩
    rw [hn0] at hm
    cases hm
    exact hu
  · exact fun hu => ⟨n0, hn0, hu⟩

theorem exists_nodes_of_values {T : Type} (P : Node T → Prop) :
    ∀ (l : List T), (∀ v ∈ l, ∃ u, P u ∧ u.data = v) →
      ∃ ns : List (Node T), ns.map (fun u => u.data) = l ∧ ∀ u ∈ ns, P u := by
  intro l
  induction l with
  | nil => exact fun _ => ⟨[], rfl, fun u hu => by cases hu⟩
  | cons v l ih =>
    intro hl
    obtain ⟨u, hu1, hu2⟩ := hl v (List.mem_cons_self _ _)
    obtain ⟨ns, hns1, hns2⟩ := ih (fun w hw => hl w (List.mem_cons_of_mem _ hw))
    refine ⟨u :: ns, by simp [hu2, hns1], ?_⟩
    intro w hw
    rcases List.mem_cons.1 hw with e | e
    · exact e ▸ hu1
    · exact hns2 w e

/-- C14: on a graph in which reachable nodes with equal data are equal, the
lists returned by `breadthFirstTraversal()` and `depthFirstTraversal()` are
permutations of each other: same length, same elements, and a value is in
the breadth-first result exactly when `find` of it is true. Both traversals
return when no pointer dangles. -/
theorem breadthFirstTraversal_perm_depthFirstTraversal {T : Type} [DecidableEq T]
    (h : Heap T) (g : Graph T)
    (hdist : ∀ n0, g.nodes.head? = some n0 → DistinctData h n0) :
    (WellFormed h g →
      ∃ dvs bvs, depthFirstTraversal h g = some dvs ∧ breadthFirstTraversal h g = some bvs) ∧
    ∀ dvs bvs, depthFirstTraversal h g = some dvs → breadthFirstTraversal h g = some bvs →
      bvs.Perm dvs ∧ bvs.length = dvs.length ∧
      ∀ v, (v ∈ bvs ↔ v ∈ dvs) ∧ (v ∈ bvs ↔ find h g v = some true) := by
  refine ⟨?_, ?_⟩
  · intro hwf
    obtain ⟨dvs, hd⟩ := depthFirstTraversal_total h g hwf
    obtain ⟨bvs, hb⟩ := breadthFirstTraversal_total h g hwf
    exact ⟨dvs, bvs, hd, hb⟩
  · intro dvs bvs hd hb
    have hmem : ∀ v, v ∈ bvs ↔ v ∈ dvs := by
      cases hg : g.nodes with
      | nil =>
        rw [(traversals_nil h g hg).1] at hd
        rw [(traversals_nil h g hg).2] at hb
        cases hd
        cases hb
        exact fun v => Iff.rfl
      | cons n0 rest =>
        have hn0 : g.nodes.head? = some n0 := by simp [hg]
        intro v
        rw [breadthFirstTraversal_mem_iff h g n0 hn0 (hdist n0 hn0) bvs hb v,
          depthFirstTraversal_mem_iff h g n0 hn0 (hdist n0 hn0) dvs hd v]
    have hperm : bvs.Perm dvs :=
      (List.perm_ext_iff_of_nodup (breadthFirstTraversal_nodup h g bvs hb)
        (depthFirstTraversal_nodup h g dvs hd)).2 hmem
    refine ⟨hperm, hperm.length_eq, ?_⟩
    intro v
    refine ⟨hmem v, ?_⟩
    rw [find_eq h g v dvs hd, hmem v]
    simp

/-- Instance of C14 on the graph of `testGraph`. -/
theorem breadthFirstTraversal_perm_depthFirstTraversal_witness :
    depthFirstTraversal testHeap testGraph = some [1, 2, 3, 4, 5] ∧
    breadthFirstTraversal testHeap testGraph = some [1, 2, 3, 4, 5] ∧
    ([1, 2, 3, 4, 5].Perm [1, 2, 3, 4, 5] ∧ [1, 2, 3, 4, 5].length = [1, 2, 3, 4, 5].length ∧
      ∀ v, (v ∈ [1, 2, 3, 4, 5] ↔ v ∈ [1, 2, 3, 4, 5]) ∧
        (v ∈ [1, 2, 3, 4, 5] ↔ find testHeap testGraph v = some true)) :=
  ⟨by decide, by decide,
   (breadthFirstTraversal_perm_depthFirstTraversal testHeap testGraph
     (fun n0 hn0 => by
       cases hn0
       exact distinctData_of_forall (by decide))).2
     [1, 2, 3, 4, 5] [1, 2, 3, 4, 5] (by decide) (by decide)⟩

/-- C15: on a graph with a non-empty node sequence in which reachable nodes
with equal data are equal, a value is in the list returned by
`depthFirstTraversal()` if and only if a node reachable from `nodes[0]`
carries it, and the list is as long as the number of reachable nodes: it is
the list of the data of a duplicate-free enumeration of the reachable nodes.
The traversal returns when no pointer dangles. -/
theorem depthFirstTraversal_exactly_reachable {T : Type} [DecidableEq T] (h : Heap T)
    (g : Graph T) (n0 : Node T) (hn0 : g.nodes.head? = some n0)
    (hdist : DistinctData h n0) :
    (WellFormed h g → ∃ vs, depthFirstTraversal h g = some vs) ∧
    ∀ vs, depthFirstTraversal h g = some vs →
      (∀ v, v ∈ vs ↔ ∃ u, Reachable h g u ∧ u.data = v) ∧
      (∃ ns : List (Node T), ns.Nodup ∧ (∀ u, u ∈ ns ↔ Reachable h g u) ∧
        ns.map (fun u => u.data) = vs) ∧
      (∀ ns : List (Node T), ns.Nodup → (∀ u, u ∈ ns ↔ Reachable h g u) →
        vs.length = ns.length) := by
  refine ⟨depthFirstTraversal_total h g, ?_⟩
  intro vs hrun
  have hmem := depthFirstTraversal_mem_iff h g n0 hn0 hdist vs hrun
  have hnd := depthFirstTraversal_nodup h g vs hrun
  refine ⟨?_, ?_, ?_⟩
  · intro v
    rw [hmem v]
    simp only [reachable_iff h g n0 hn0]
  · obtain ⟨ns, hns1, hns2⟩ := exists_nodes_of_values (Reach h n0) vs
      (fun v hv => (hmem v).1 hv)
    refine ⟨ns, List.Nodup.of_map _ (hns1 ▸ hnd), ?_, hns1⟩
    intro u
    rw [reachable_iff h g n0 hn0]
    constructor
    · exact hns2 u
    · intro hu
      have hd : u.data ∈ vs := (hmem _).2 ⟨u, hu, rfl⟩
      rw [← hns1, List.mem_map] at hd
      obtain ⟨w, hw1, hw2⟩ := hd
      exact hdist w u (hns2 w hw1) hu hw2 ▸ hw1
  · intro ns hns1 hns2
    have hinj : (ns.map (fun u => u.data)).Nodup := by
      refine List.Nodup.map_on ?_ hns1
      intro x hx y hy hxy
      exact hdist x y ((reachable_iff h g n0 hn0 x).1 ((hns2 x).1 hx))
        ((reachable_iff h g n0 hn0 y).1 ((hns2 y).1 hy)) hxy
    have hperm : vs.Perm (ns.map (fun u => u.data)) := by
      refine (List.perm_ext_iff_of_nodup hnd hinj).2 ?_
      intro v
      rw [hmem v, List.mem_map]
      constructor
      · rintro ⟨u, hu1, hu2⟩
        exact ⟨u, (hns2 u).2 ((reachable_iff h g n0 hn0 u).2 hu1), hu2⟩
      · rintro ⟨u, hu1, hu2⟩
        exact ⟨u, (reachable_iff h g n0 hn0 u).1 ((hns2 u).1 hu1), hu2⟩
    rw [hperm.length_eq, List.length_map]

/-- Instance of C15 on the graph of `testGraph`: the result `[1, 2, 3, 4, 5]`
holds exactly the data of the reachable nodes. -/
theorem depthFirstTraversal_exactly_reachable_witness :
    DistinctData testHeap { data := 1, adjacencyList := [1] } ∧
    depthFirstTraversal testHeap testGraph = some [1, 2, 3, 4, 5] ∧
    (∀ v, v ∈ [1, 2, 3, 4, 5] ↔ ∃ u, Reachable testHeap testGraph u ∧ u.data = v) ∧
    (∃ ns : List (Node Nat), ns.Nodup ∧ (∀ u, u ∈ ns ↔ Reachable testHeap testGraph u) ∧
      ns.map (fun u => u.data) = [1, 2, 3, 4, 5]) :=
  ⟨distinctData_of_forall (by decide), by decide,
   ((depthFirstTraversal_exactly_reachable testHeap testGraph
     { data := 1, adjacencyList := [1] } rfl (distinctData_of_forall (by decide))).2
     [1, 2, 3, 4, 5] (by decide)).1,
   ((depthFirstTraversal_exactly_reachable testHeap testGraph
     { data := 1, adjacencyList := [1] } rfl (distinctData_of_forall (by decide))).2
     [1, 2, 3, 4, 5] (by decide)).2.1⟩

/-- C16: the traversals depend only on the first stored node and on the
objects its pointers lead to: two graphs over the same objects whose stored
sequences have the same first node give equal `depthFirstTraversal()`,
`breadthFirstTraversal()` and `find(v)`, whatever the remaining stored nodes
are, a graph that stores the first node alone included. -/
theorem traversals_depend_on_first_node {T : Type} [DecidableEq T] (h : Heap T)
    (g1 g2 : Graph T) (hhead : g1.nodes.head? = g2.nodes.head?) :
    depthFirstTraversal h g1 = depthFirstTraversal h g2 ∧
    breadthFirstTraversal h g1 = breadthFirstTraversal h g2 ∧
    (∀ v, find h g1 v = find h g2 v) ∧
    (∀ n0, g1.nodes.head? = some n0 →
      depthFirstTraversal h g1 = depthFirstTraversal h (Graph.new [n0]) ∧
      breadthFirstTraversal h g1 = breadthFirstTraversal h (Graph.new [n0])) := by
  have key : ∀ (a b : Graph T), a.nodes.head? = b.nodes.head? →
      depthFirstTraversal h a = depthFirstTraversal h b ∧
      breadthFirstTraversal h a = breadthFirstTraversal h b := by
    intro a b hab
    cases ha : a.nodes with
    | nil =>
      cases hb : b.nodes with
      | nil => simp [depthFirstTraversal, breadthFirstTraversal, ha, hb]
      | cons m tl => simp [ha, hb] at hab
    | cons n tl =>
      cases hb : b.nodes with
      | nil => simp [ha, hb] at hab
      | cons m tl' =>
        rw [ha, hb] at hab
        simp only [List.head?_cons, Option.some.injEq] at hab
        subst hab
        simp [depthFirstTraversal, breadthFirstTraversal, ha, hb]
  obtain ⟨k1, k2⟩ := key g1 g2 hhead
  refine ⟨k1, k2, ?_, ?_⟩
  · intro v
    simp only [find, k1]
  · intro n0 hn0
    exact key g1 (Graph.new [n0]) (by rw [hn0]; rfl)

/-- Instance of C16: the graph of `testGraph` and the graph that stores only a
copy of `n1` give the same results; `n2 .. n5`, absent from the latter's
stored sequence, are traversed. -/
theorem traversals_depend_on_first_node_witness :
    depthFirstTraversal testHeap testGraphFirstOnly = some [1, 2, 3, 4, 5] ∧
    breadthFirstTraversal testHeap testGraphFirstOnly = some [1, 2, 3, 4, 5] ∧
    depthFirstTraversal testHeap testGraph = depthFirstTraversal testHeap testGraphFirstOnly ∧
    breadthFirstTraversal testHeap testGraph =
      breadthFirstTraversal testHeap testGraphFirstOnly ∧
    (∀ v, find testHeap testGraph v = find testHeap testGraphFirstOnly v) :=
  ⟨by decide, by decide,
   (traversals_depend_on_first_node testHeap testGraph testGraphFirstOnly rfl).1,
   (traversals_depend_on_first_node testHeap testGraph testGraphFirstOnly rfl).2.1,
   (traversals_depend_on_first_node testHeap testGraph testGraphFirstOnly rfl).2.2.1⟩

/-! ## Counting the calls of `depthFirstImpl` -/

theorem dfsChildrenCalls_erase {T : Type} [DecidableEq T] (h : Heap T)
    (recurseC : Node T → DfsState T → Option (DfsState T × Nat))
    (recurse : Node T → DfsState T → Option (DfsState T))
    (hrec : ∀ c s, (recurseC c s).map Prod.fst = recurse c s) :
    ∀ (ps : List Nat) (s : DfsState T),
      (dfsChildrenCalls h recurseC ps s).map Prod.fst = dfsChildren h recurse ps s := by
  intro ps
  induction ps with
  | nil => intro s; rfl
  | cons p ps ih =>
    intro s
    unfold dfsChildrenCalls dfsChildren
    cases hp : h[p]? with
    | none => rfl
    | some child =>
      simp only
      by_cases hv : child.data ∈ s.visited
      · simp only [hv, if_true]
        exact ih s
      · simp only [hv, if_false]
        have h1 := hrec child s
        cases hr : recurseC child s with
        | none =>
          rw [hr] at h1
          simp only [Option.map_none'] at h1
          simp [← h1]
        | some sk =>
          obtain ⟨s1, k⟩ := sk
          rw [hr] at h1
          simp only [Option.map_some'] at h1
          simp only [← h1]
          have h2 := ih s1
          cases hr2 : dfsChildrenCalls h recurseC ps s1 with
          | none =>
            rw [hr2] at h2
            simp only [Option.map_none'] at h2
            simp [← h2]
          | some sk2 =>
            rw [hr2] at h2
            simp only [Option.map_some'] at h2
            simp [← h2]

theorem depthFirstImplCalls_erase {T : Type} [DecidableEq T] (h : Heap T) :
    ∀ (fuel : Nat) (n : Node T) (s : DfsState T),
      (depthFirstImplCalls h fuel n s).map Prod.fst = depthFirstImpl h fuel n s := by
  intro fuel
  induction fuel with
  | zero => intro n s; rfl
  | succ fuel ih =>
    intro n s
    simp only [depthFirstImplCalls, depthFirstImpl]
    have h1 := dfsChildrenCalls_erase h (depthFirstImplCalls h fuel) (depthFirstImpl h fuel)
      ih n.adjacencyList
      { values := s.values ++ [n.data], visited := s.visited.insert n.data }
    cases hr : dfsChildrenCalls h (depthFirstImplCalls h fuel) n.adjacencyList
        { values := s.values ++ [n.data], visited := s.visited.insert n.data } with
    | none =>
      rw [hr] at h1
      simp only [Option.map_none'] at h1
      simp [← h1]
    | some sk =>
      rw [hr] at h1
      simp only [Option.map_some'] at h1
      simp [← h1]

theorem dfsChildrenCalls_count {T : Type} [DecidableEq T] (h : Heap T)
    (recurseC : Node T → DfsState T → Option (DfsState T × Nat))
    (hrec : ∀ c s s' k, recurseC c s = some (s', k) →
      s'.values.length = s.values.length + k) :
    ∀ (ps : List Nat) (s s' : DfsState T) (k : Nat),
      dfsChildrenCalls h recurseC ps s = some (s', k) →
      s'.values.length = s.values.length + k := by
  intro ps
  induction ps with
  | nil =>
    intro s s' k hrun
    simp only [dfsChildrenCalls, Option.some.injEq, Prod.mk.injEq] at hrun
    obtain ⟨e1, e2⟩ := hrun
    subst e1 e2
    rfl
  | cons p ps ih =>
    intro s s' k hrun
    unfold dfsChildrenCalls at hrun
    cases hp : h[p]? with
    | none => simp [hp] at hrun
    | some child =>
      simp only [hp] at hrun
      by_cases hv : child.data ∈ s.visited
      · simp only [hv, if_true] at hrun
        exact ih s s' k hrun
      · simp only [hv, if_false] at hrun
        cases hr : recurseC child s with
        | none => simp [hr] at hrun
        | some sk =>
          obtain ⟨s1, k1⟩ := sk
          simp only [hr] at hrun
          cases hr2 : dfsChildrenCalls h recurseC ps s1 with
          | none => simp [hr2] at hrun
          | some sk2 =>
            obtain ⟨s2, k2⟩ := sk2
            simp only [hr2, Option.some.injEq, Prod.mk.injEq] at hrun
            obtain ⟨e1, e2⟩ := hrun
            subst e1 e2
            have a1 := hrec child s s1 k1 hr
            have a2 := ih s1 s2 k2 hr2
            omega

theorem depthFirstImplCalls_count {T : Type} [DecidableEq T] (h : Heap T) :
    ∀ (fuel : Nat) (n : Node T) (s s' : DfsState T) (k : Nat),
      depthFirstImplCalls h fuel n s = some (s', k) →
      s'.values.length = s.values.length + k := by
  intro fuel
  induction fuel with
  | zero =>
    intro n s s' k hrun
    simp [depthFirstImplCalls] at hrun
  | succ fuel ih =>
    intro n s s' k hrun
    simp only [depthFirstImplCalls] at hrun
    cases hr : dfsChildrenCalls h (depthFirstImplCalls h fuel) n.adjacencyList
        { values := s.values ++ [n.data], visited := s.visited.insert n.data } with
    | none => simp [hr] at hrun
    | some sk =>
      obtain ⟨s1, k1⟩ := sk
      simp only [hr, Option.some.injEq, Prod.mk.injEq] at hrun
      obtain ⟨e1, e2⟩ := hrun
      subst e1 e2
      have := dfsChildrenCalls_count h (depthFirstImplCalls h fuel) ih _ _ s1 k1 hr
      simp only [List.length_append, List.length_singleton] at this
      omega

theorem depthFirstTraversalCalls_erase {T : Type} [DecidableEq T] (h : Heap T)
    (g : Graph T) :
    (depthFirstTraversalCalls h g).map Prod.fst = depthFirstTraversal h g := by
  unfold depthFirstTraversalCalls depthFirstTraversal
  cases hg : g.nodes with
  | nil => rfl
  | cons n0 rest =>
    simp only
    have h1 := depthFirstImplCalls_erase h (h.length + 1) n0 { values := [], visited := [] }
    cases hr : depthFirstImplCalls h (h.length + 1) n0 { values := [], visited := [] } with
    | none =>
      rw [hr] at h1
      simp only [Option.map_none'] at h1
      simp [← h1]
    | some sk =>
      rw [hr] at h1
      simp only [Option.map_some'] at h1
      simp [← h1]

theorem depthFirstTraversalCalls_count {T : Type} [DecidableEq T] (h : Heap T)
    (g : Graph T) (vs : List T) (k : Nat)
    (hrun : depthFirstTraversalCalls h g = some (vs, k)) : k = vs.length := by
  unfold depthFirstTraversalCalls at hrun
  cases hg : g.nodes with
  | nil =>
    simp only [hg, Option.some.injEq, Prod.mk.injEq] at hrun
    obtain ⟨e1, e2⟩ := hrun
    subst e1 e2
    rfl
  | cons n0 rest =>
    simp only [hg] at hrun
    cases hr : depthFirstImplCalls h (h.length + 1) n0 { values := [], visited := [] } with
    | none => simp [hr] at hrun
    | some sk =>
      obtain ⟨s1, k1⟩ := sk
      simp only [hr, Option.some.injEq, Prod.mk.injEq] at hrun
      obtain ⟨e1, e2⟩ := hrun
      subst e1 e2
      have := depthFirstImplCalls_count h _ n0 _ s1 k1 hr
      simp only [List.length_nil] at this
      omega

theorem depthFirstTraversal_length_le {T : Type} [DecidableEq T] (h : Heap T) (g : Graph T)
    (vs : List T) (hrun : depthFirstTraversal h g = some vs) :
    vs.length ≤ distinctDataCount h g := by
  have hnd := depthFirstTraversal_nodup h g vs hrun
  have hsub : vs ⊆ ((g.nodes ++ h).map (fun n => n.data)).dedup := by
    intro v hv
    obtain ⟨u, ⟨n0, hn0, hu⟩, hdata⟩ := depthFirstTraversal_sound h g vs hrun v hv
    rw [List.mem_dedup, List.mem_map]
    refine ⟨u, ?_, hdata⟩
    rcases hu.mem_heap with e | e
    · rw [e]
      exact List.mem_append_left _ (List.mem_of_mem_head? hn0)
    · exact List.mem_append_right _ e
  exact (List.subperm_of_subset hnd hsub).length_le

/-- C17: `depthFirstTraversal()` terminates on every graph without dangling
pointers, cycles and self-loops included; every call of `depthFirstImpl`
adds one value that was not visited before, so the number of calls equals
the length of the duplicate-free result and is at most the number of
distinct data values in the graph. -/
theorem depthFirstTraversal_terminates {T : Type} [DecidableEq T] (h : Heap T)
    (g : Graph T) :
    (WellFormed h g → ∃ vs k, depthFirstTraversalCalls h g = some (vs, k)) ∧
    (depthFirstTraversalCalls h g).map Prod.fst = depthFirstTraversal h g ∧
    ∀ vs k, depthFirstTraversalCalls h g = some (vs, k) →
      vs.Nodup ∧ k = vs.length ∧ k ≤ distinctDataCount h g := by
  have herase := depthFirstTraversalCalls_erase h g
  refine ⟨?_, herase, ?_⟩
  · intro hwf
    obtain ⟨vs, hvs⟩ := depthFirstTraversal_total h g hwf
    rw [hvs] at herase
    cases hr : depthFirstTraversalCalls h g with
    | none => simp [hr] at herase
    | some vk => exact ⟨vk.1, vk.2, rfl⟩
  · intro vs k hrun
    have hvs : depthFirstTraversal h g = some vs := by
      rw [← herase, hrun]
      rfl
    have hk := depthFirstTraversalCalls_count h g vs k hrun
    exact ⟨depthFirstTraversal_nodup h g vs hvs, hk,
      hk ▸ depthFirstTraversal_length_le h g vs hvs⟩

/-- Instance of C17 on a graph with a self-loop and cycles: three calls for
three distinct data values. -/
theorem depthFirstTraversal_terminates_witness :
    WellFormed tangleHeap tangleGraph ∧
    depthFirstTraversalCalls tangleHeap tangleGraph = some ([1, 2, 3], 3) ∧
    distinctDataCount tangleHeap tangleGraph = 3 ∧
    (∃ vs k, depthFirstTraversalCalls tangleHeap tangleGraph = some (vs, k)) ∧
    (([1, 2, 3] : List Nat).Nodup ∧ 3 = [1, 2, 3].length ∧
      3 ≤ distinctDataCount tangleHeap tangleGraph) :=
  ⟨by decide, by decide, by decide,
   (depthFirstTraversal_terminates tangleHeap tangleGraph).1 (by decide),
   (depthFirstTraversal_terminates tangleHeap tangleGraph).2.2 [1, 2, 3] 3 (by decide)⟩

/-! ## Counting the iterations of the breadth-first loop -/

theorem bfsLoopTrace_erase {T : Type} [DecidableEq T] (h : Heap T) :
    ∀ (fuel : Nat) (s : BfsState T),
      (bfsLoopTrace h fuel s).map (fun t => t.1) = bfsLoop h fuel s := by
  intro fuel
  induction fuel with
  | zero =>
    intro s
    simp only [bfsLoopTrace, bfsLoop]
    split <;> rfl
  | succ fuel ih =>
    intro s
    simp only [bfsLoopTrace, bfsLoop]
    split
    · rfl
    · cases hs : bfsStep h s with
      | none => rfl
      | some s1 =>
        simp only
        have h1 := ih s1
        cases hr : bfsLoopTrace h fuel s1 with
        | none =>
          rw [hr] at h1
          simp only [Option.map_none'] at h1
          simp [← h1]
        | some t =>
          rw [hr] at h1
          simp only [Option.map_some'] at h1
          simp [← h1]

theorem bfsLoopTrace_bound {T : Type} [DecidableEq T] (h : Heap T) :
    ∀ (fuel : Nat) (s : BfsState T) (r : List T) (k : Nat) (recorded : List (Node T)),
      bfsLoopTrace h fuel s = some (r, k, recorded) →
      r = s.result ++ recorded.map (fun n => n.data) ∧
      k ≤ s.d.length + (recorded.map (fun n => n.adjacencyList.length)).sum := by
  intro fuel
  induction fuel with
  | zero =>
    intro s r k recorded hrun
    simp only [bfsLoopTrace] at hrun
    by_cases hd : s.d = []
    · simp only [hd, List.isEmpty_nil, if_true, Option.some.injEq, Prod.mk.injEq] at hrun
      obtain ⟨e1, e2, e3⟩ := hrun
      subst e1 e2 e3
      simp
    · simp [List.isEmpty_iff, hd] at hrun
  | succ fuel ih =>
    intro s r k recorded hrun
    simp only [bfsLoopTrace] at hrun
    by_cases hd : s.d = []
    · simp only [hd, List.isEmpty_nil, if_true, Option.some.injEq, Prod.mk.injEq] at hrun
      obtain ⟨e1, e2, e3⟩ := hrun
      subst e1 e2 e3
      simp
    · simp only [List.isEmpty_iff, hd, if_false] at hrun
      cases hs : bfsStep h s with
      | none => simp [hs] at hrun
      | some s1 =>
        simp only [hs] at hrun
        cases hr : bfsLoopTrace h fuel s1 with
        | none => simp [hr] at hrun
        | some t =>
          obtain ⟨r1, k1, rec1⟩ := t
          simp only [hr, Option.some.injEq, Prod.mk.injEq] at hrun
          obtain ⟨e1, e2, e3⟩ := hrun
          subst e1 e2 e3
          obtain ⟨a1, a2⟩ := ih s1 r1 k1 rec1 hr
          cases hdd : s.d with
          | nil => exact absurd hdd hd
          | cons d0 tl =>
            rcases bfsStep_cases h s s1 d0 tl hdd hs with ⟨hv, e⟩ | ⟨hv, _, e⟩
            · subst e
              simp only at a1 a2
              simp only [recordedNow, hdd, hv, if_true, List.nil_append, List.length_cons]
              exact ⟨a1, by omega⟩
            · subst e
              simp only [List.length_append] at a1 a2
              have h2 := List.length_filter_le
                (fun c => decide (c.data ∉ s.visited.insert d0.data))
                (children h d0.adjacencyList)
              have h3 := children_length_le h d0.adjacencyList
              simp only [recordedNow, hdd, hv, if_false, List.singleton_append,
                List.map_cons, List.sum_cons, List.length_cons]
              refine ⟨?_, by omega⟩
              rw [a1]
              simp

/-- C18: the frontier loop of `breadthFirstTraversal()` terminates on every
graph without dangling pointers, cycles and self-loops included; the
recorded nodes carry pairwise different data, which make up the result, and
the number of iterations is at most one plus the sum of the adjacency-list
lengths of the recorded nodes. -/
theorem breadthFirstTraversal_terminates {T : Type} [DecidableEq T] (h : Heap T)
    (g : Graph T) :
    (WellFormed h g →
      ∃ vs k recorded, breadthFirstTraversalTrace h g = some (vs, k, recorded)) ∧
    (breadthFirstTraversalTrace h g).map (fun t => t.1) = breadthFirstTraversal h g ∧
    ∀ vs k recorded, breadthFirstTraversalTrace h g = some (vs, k, recorded) →
      vs = recorded.map (fun n => n.data) ∧ vs.Nodup ∧
      k ≤ 1 + (recorded.map (fun n => n.adjacencyList.length)).sum := by
  have herase : (breadthFirstTraversalTrace h g).map (fun t => t.1) =
      breadthFirstTraversal h g := by
    unfold breadthFirstTraversalTrace breadthFirstTraversal
    cases hg : g.nodes with
    | nil => rfl
    | cons n0 rest => exact bfsLoopTrace_erase h _ _
  refine ⟨?_, herase, ?_⟩
  · intro hwf
    obtain ⟨vs, hvs⟩ := breadthFirstTraversal_total h g hwf
    rw [hvs] at herase
    cases hr : breadthFirstTraversalTrace h g with
    | none => simp [hr] at herase
    | some t => exact ⟨t.1, t.2.1, t.2.2, rfl⟩
  · intro vs k recorded hrun
    have hvs : breadthFirstTraversal h g = some vs := by
      rw [← herase, hrun]
      rfl
    refine ⟨?_, breadthFirstTraversal_nodup h g vs hvs, ?_⟩
    · unfold breadthFirstTraversalTrace at hrun
      cases hg : g.nodes with
      | nil =>
        simp only [hg, Option.some.injEq, Prod.mk.injEq] at hrun
        obtain ⟨e1, _, e3⟩ := hrun
        subst e1 e3
        rfl
      | cons n0 rest =>
        simp only [hg] at hrun
        simpa using (bfsLoopTrace_bound h _ _ vs k recorded hrun).1
    · unfold breadthFirstTraversalTrace at hrun
      cases hg : g.nodes with
      | nil =>
        simp only [hg, Option.some.injEq, Prod.mk.injEq] at hrun
        obtain ⟨_, e2, _⟩ := hrun
        omega
      | cons n0 rest =>
        simp only [hg] at hrun
        simpa using (bfsLoopTrace_bound h _ _ vs k recorded hrun).2

/-- Instance of C18 on a graph with a self-loop and cycles: four iterations,
three recorded nodes with adjacency lists of lengths 4, 3 and 2. -/
theorem breadthFirstTraversal_terminates_witness :
    WellFormed tangleHeap tangleGraph ∧
    breadthFirstTraversalTrace tangleHeap tangleGraph =
      some ([1, 2, 3], 4,
        [ { data := 1, adjacencyList := [0, 1, 1, 2] },
          { data := 2, adjacencyList := [0, 1, 3] },
          { data := 3, adjacencyList := [3, 0] } ]) ∧
    (∃ vs k recorded, breadthFirstTraversalTrace tangleHeap tangleGraph =
      some (vs, k, recorded)) ∧
    4 ≤ 1 + (([ { data := 1, adjacencyList := [0, 1, 1, 2] },
                { data := 2, adjacencyList := [0, 1, 3] },
                { data := 3, adjacencyList := [3, 0] } ] : List (Node Nat)).map
              (fun n => n.adjacencyList.length)).sum :=
  ⟨by decide, by decide,
   (breadthFirstTraversal_terminates tangleHeap tangleGraph).1 (by decide),
   ((breadthFirstTraversal_terminates tangleHeap tangleGraph).2.2 [1, 2, 3] 4
     [ { data := 1, adjacencyList := [0, 1, 1, 2] },
       { data := 2, adjacencyList := [0, 1, 3] },
       { data := 3, adjacencyList := [3, 0] } ] (by decide)).2.2⟩

/-! ## Frame of `setAdjacencyList` -/

theorem getAdjacencyListLoop_set {T : Type} (h : Heap T) (a : Nat) (n : Node T)
    (hn : h[a]? = some n) (adj : List Nat) :
    ∀ (ps : List Nat) (values : List T),
      getAdjacencyListLoop (h.set a (n.setAdjacencyList adj)) ps values =
        getAdjacencyListLoop h ps values := by
  have ha : a < h.length := by
    by_contra hge
    rw [List.getElem?_eq_none (Nat.le_of_not_lt hge)] at hn
    cases hn
  intro ps
  induction ps with
  | nil => intro values; rfl
  | cons p ps ih =>
    intro values
    unfold getAdjacencyListLoop
    by_cases hpa : a = p
    · subst hpa
      rw [List.getElem?_set_self ha, hn]
      exact ih _
    · rw [List.getElem?_set_ne hpa]
      cases hp : h[p]? with
      | none => rfl
      | some c => exact ih _

/-- C19: `setAdjacencyList` on the object at address `a` replaces that object's
adjacency list and nothing else: its data is kept, every other object is
unchanged, and `getAdjacencyList()` of every other object, and of every node
value such as a copy stored in a graph, returns what it returned before. -/
theorem setAdjacencyList_frame {T : Type} (h : Heap T) (a : Nat) (n : Node T)
    (adj : List Nat) (ha : h[a]? = some n) :
    ∃ h', h.setAdjacencyList a adj = some h' ∧
      h'.length = h.length ∧
      h'[a]? = some { data := n.data, adjacencyList := adj } ∧
      (∀ b, b ≠ a → h'[b]? = h[b]?) ∧
      (∀ b m, b ≠ a → h[b]? = some m →
        h'[b]? = some m ∧ m.getAdjacencyList h' = m.getAdjacencyList h) ∧
      (∀ m : Node T, m.getAdjacencyList h' = m.getAdjacencyList h) := by
  have halt : a < h.length := by
    by_contra hge
    rw [List.getElem?_eq_none (Nat.le_of_not_lt hge)] at ha
    cases ha
  refine ⟨h.set a (n.setAdjacencyList adj), ?_, ?_, ?_, ?_, ?_, ?_⟩
  · simp [Heap.setAdjacencyList, ha]
  · simp
  · rw [List.getElem?_set_self halt]
    rfl
  · intro b hb
    exact List.getElem?_set_ne (fun e => hb e.symm)
  · intro b m hb hm
    refine ⟨?_, ?_⟩
    · rw [List.getElem?_set_ne (fun e => hb e.symm)]
      exact hm
    · exact getAdjacencyListLoop_set h a n ha adj m.adjacencyList []
  · intro m
    exact getAdjacencyListLoop_set h a n ha adj m.adjacencyList []

/-- Instance of C19 on the objects of `testGraph`: after `n1` and `n2` are set,
`n3.setAdjacencyList({&n2, &n4})` leaves `n2` and its `getAdjacencyList()`
`[1, 3, 4]` as they were; the five calls in sequence give the objects of
`testHeap`. -/
theorem setAdjacencyList_frame_witness :
    testHeapBuilt = some testHeap ∧
    Node.getAdjacencyList testHeapTwoSet { data := 2, adjacencyList := [0, 2, 3] } =
      some [1, 3, 4] ∧
    ∃ h', testHeapTwoSet.setAdjacencyList 2 [1, 3] = some h' ∧
      h'.length = testHeapTwoSet.length ∧
      h'[2]? = some { data := 3, adjacencyList := [1, 3] } ∧
      (∀ b, b ≠ 2 → h'[b]? = testHeapTwoSet[b]?) ∧
      (∀ b m, b ≠ 2 → testHeapTwoSet[b]? = some m →
        h'[b]? = some m ∧
        m.getAdjacencyList h' = m.getAdjacencyList testHeapTwoSet) ∧
      (∀ m : Node Nat, m.getAdjacencyList h' = m.getAdjacencyList testHeapTwoSet) :=
  ⟨by decide, by decide,
   setAdjacencyList_frame testHeapTwoSet 2 (Node.new 3) [1, 3] rfl⟩

end GraphH
